import Mathlib

/-!
# Verification of the ManTIME span–label annotation codec

Shallow embedding of the core of the ManTIME repository
(`mantime/model.py`, `mantime/utilities.py`, `mantime/writers.py`)
together with proofs and refutations of the specified properties.

Conventions:
* Python character offsets are modelled as `Nat` (they are non-negative
  character indices produced by the tokenizer).
* Python `None` is modelled as `Option.none`.
* Python `assert` failures (`AssertionError`) are modelled with `Except`.
* The two `while` loops of the subsequence search are modelled with
  explicit fuel so that they are structurally recursive and compute by
  `rfl`; the chosen fuel bounds are proved sufficient below, so with
  these bounds the model is exactly the Python loop.
-/

set_option maxRecDepth 4000

namespace ManTIME

/-! ## Definitions: the annotation encoder (model.py) -/

/-- A gold annotation as consumed by the encoder: the tag name and the
half-open character range `(start_offset, end_offset)`.  In the source each
annotation is a triple `(tag, attributes, (start_offset, end_offset))`; the
middle component is destructured away and never read by
`format_annotation` (model.py line 21), so it is omitted from the model. -/
abbrev Ann := String × Nat × Nat

/-- The loop of `format_annotation` (model.py lines 19–36): it walks the
annotation list carrying the current `sequence_label` (`none` models the
Python initial value `None`) and the running `tag_fired`, and stops at the
first annotation firing one of the four conditions, in their source order:
whole match (`W`), end-aligned (`E`), start-aligned (`B`), strict
containment (`I`).  An annotation firing none of them sets the label to
`'O'`, records its tag, and the loop continues. -/
def faLoop (start_token end_token : Nat) (sequence_label : Option Char)
    (tag_fired : String) : List Ann → Option Char × String
  | [] => (sequence_label, tag_fired)
  | (tag, start_offset, end_offset) :: rest =>
    if start_offset = start_token ∧ end_offset = end_token then (some 'W', tag)
    else if end_offset = end_token then (some 'E', tag)
    else if start_offset = start_token then (some 'B', tag)
    else if start_offset < start_token ∧ end_offset > end_token then (some 'I', tag)
    else faLoop start_token end_token (some 'O') tag rest

/-- The alphabet-restriction step of `format_annotation` (model.py lines
37–38): a `sequence_label` that is not a member of
`list(annotation_format)` is replaced by `'I'`; this includes the initial
`None`, which is not a member of any list of characters. -/
def resolveLabel (annotation_format : String) : Option Char → Char
  | none => 'I'
  | some c => if c ∈ annotation_format.toList then c else 'I'

/-- `format_annotation` (model.py lines 17–42): run the loop, restrict the
resolved label to the alphabet, then return `'O'` bare and any other label
as `"<symbol>-<tag_fired>"`. -/
def format_annotation (start_token end_token : Nat) (anns : List Ann)
    (annotation_format : String) : String :=
  let r := faLoop start_token end_token none "" anns
  if resolveLabel annotation_format r.1 = 'O' then "O"
  else String.singleton (resolveLabel annotation_format r.1) ++ "-" ++ r.2

/-- One annotation fires one of the four stop conditions of the encoder
loop for the token `[start_token, end_token)`. -/
abbrev fires (start_token end_token : Nat) (a : Ann) : Prop :=
  (a.2.1 = start_token ∧ a.2.2 = end_token) ∨ a.2.2 = end_token ∨
    a.2.1 = start_token ∨ (a.2.1 < start_token ∧ a.2.2 > end_token)

/-! ## Definitions: the document data model (model.py) -/

/-- `Word` (model.py lines 99–109): the linguistic token record.  The
Stanford-parser character offsets (stored as strings in Python and read
back through `int(...)`, a lossless conversion on canonical numerals) are
modelled as `Nat`; `attributes` (a Python dict with string keys) is
modelled as an association list with distinct keys maintained by
`dictSet`. -/
structure Word where
  word_form : String
  character_offset_begin : Nat
  character_offset_end : Nat
  lemma_form : String
  named_entity_tag : String
  part_of_speech : String
  attributes : List (String × String)

/-- `Sentence` (model.py lines 77–96).  The constructor takes a `text`
argument but never stores it; only these four fields exist on the object.
The opaque parser payloads are modelled as strings. -/
structure Sentence where
  dependencies : List String
  indexed_dependencies : List String
  parsetree : String
  words : List Word

/-- `Document` (model.py lines 45–74): the fields set by `__init__`,
with `dct`/`coref` (initialised to `None`) as options. -/
structure Document where
  name : String
  file_path : String
  dct : Option String
  text : String
  sentences : List Sentence
  coref : Option String
  gold_annotations : List Ann
  predicted_annotations : List Ann
  annotation_format : String

/-- Python dict assignment `d[k] = v` on an association list: replace the
binding of `k` if present, otherwise append it. -/
def dictSet : List (String × String) → String → String → List (String × String)
  | [], k, v => [(k, v)]
  | (k', v') :: rest, k, v =>
    if k' = k then (k, v) :: rest else (k', v') :: dictSet rest k v

/-- Python dict lookup `d[k]` on an association list. -/
def dictGet : List (String × String) → String → Option String
  | [], _ => none
  | (k', v') :: rest, k => if k' = k then some v' else dictGet rest k

/-- `Document.store_gold_annotations` (model.py lines 59–68): for every
word of every sentence, set `word.attributes['CLASS']` to the label
computed by `format_annotation` from the word's character offsets and the
document's gold annotations, then set `document.annotation_format`.
Python mutates in place; the model returns the updated document. -/
def Document.store_gold_annotations (d : Document)
    (annotation_format : String) : Document :=
  let relabel := fun (w : Word) =>
    { w with
      attributes := dictSet w.attributes "CLASS"
        ( format_annotation w.character_offset_begin w.character_offset_end
          d.gold_annotations annotation_format) }
  { d with
    sentences := d.sentences.map
      (fun s => { s with words := s.words.map relabel }),
    annotation_format := annotation_format }

/-! ## Definitions: `search_subsequence` (utilities.py lines 80–120) -/

/-- The inner `while` of the shift-table construction (utilities.py lines
103–105): while `shift <= current_position` and
`key[current_position] != key[current_position-shift]`, advance `shift`
by `shifts_table[current_position-shift]`.  The fuel `p + 1` is
sufficient (`shift` strictly increases and the loop exits once it passes
`p`), as proved in `shiftWhile_fuel_spec` below. -/
def shiftWhile [DecidableEq α] (key : List α) (p : Nat) (table : List Nat) :
    Nat → Nat → Nat
  | shift, 0 => shift
  | shift, fuel + 1 =>
    if shift ≤ p ∧ key.get? p ≠ key.get? (p - shift) then
      shiftWhile key p table (shift + table.getD (p - shift) 1) fuel
    else shift

/-- The `for current_position in range(len(key))` loop of the table
construction (utilities.py lines 102–106), threading the persistent
`shift` variable and writing `shifts_table[current_position+1]`. -/
def buildTableAux [DecidableEq α] (key : List α) :
    List Nat → List Nat → Nat → List Nat
  | [], table, _ => table
  | p :: ps, table, shift =>
    let shift' := shiftWhile key p table shift (p + 1)
    buildTableAux key ps (table.set (p + 1) shift') shift'

/-- `shifts_table` (utilities.py lines 100–106): starts as
`[1] * (len(key) + 1)` with `shift = 1`. -/
def shifts_table [DecidableEq α] (key : List α) : List Nat :=
  buildTableAux key (List.range key.length)
    (List.replicate (key.length + 1) 1) 1

/-- The inner `while` of the search loop (utilities.py lines 111–114):
while `matched_lenght == len(key)` or
(`matched_lenght >= 0` and `key[matched_lenght] != item`), advance
`start_position` and retreat `matched_lenght` by
`shifts_table[matched_lenght]`.  `matched_lenght` is a Python `int` that
can reach `-1`, hence `Int`.  The fuel `len(key) + 2` is sufficient
(`matched_lenght` strictly decreases and the loop exits below `0`), as
proved in `matchWhile_spec` below. -/
def matchWhile [DecidableEq α] (key : List α) (table : List Nat) (item : α) :
    Int × Int → Nat → Int × Int
  | (sp, ml), 0 => (sp, ml)
  | (sp, ml), fuel + 1 =>
    if ml = (key.length : Int) ∨ (0 ≤ ml ∧ key.get? ml.toNat ≠ some item) then
      matchWhile key table item
        (sp + (table.getD ml.toNat 1 : Int),
         ml - (table.getD ml.toNat 1 : Int)) fuel
    else (sp, ml)

/-- The `for item in sequence` loop of the search (utilities.py lines
110–120).  `emit` resolves the `end` flag at each yield: the code yields
`start_position` when `end` is false and
`(start_position, start_position + len(key) - 1)` when `end` is true. -/
def searchLoop [DecidableEq α] (key : List α) (table : List Nat)
    (emit : Int → β) : List α → Int → Int → List β
  | [], _, _ => []
  | item :: rest, sp, ml =>
    let r := matchWhile key table item (sp, ml) (key.length + 2)
    if r.2 + 1 = (key.length : Int) then
      emit r.1 :: searchLoop key table emit rest r.1 (r.2 + 1)
    else searchLoop key table emit rest r.1 (r.2 + 1)

/-- `search_subsequence(sequence, key)` with `end=False` (utilities.py
lines 80–120): `assert len(key) > 0, 'The key is empty.'` is modelled as
the error case (the following `if not key: return` is unreachable). -/
def search_subsequence [DecidableEq α] (sequence key : List α) :
    Except String (List Int) :=
  if 0 < key.length then
    .ok (searchLoop key (shifts_table key) (fun sp => sp) sequence 0 0)
  else .error "The key is empty."

/-- `search_subsequence(sequence, key, end=True)`. -/
def search_subsequence_end [DecidableEq α] (sequence key : List α) :
    Except String (List (Int × Int)) :=
  if 0 < key.length then
    .ok (searchLoop key (shifts_table key)
      (fun sp => (sp, sp + (key.length : Int) - 1)) sequence 0 0)
  else .error "The key is empty."

/-! ## Definitions: the reference side of the search (from the spec)

`naiveMatches` is the specification's naive quadratic reference scan:
every start index `i` with `S[i:i+m] == K`, in ascending order.  The
remaining definitions are the semantic tools used to relate the KMP
loops to it: prefix-suffix borders (`bpred`, `fail`) for the pattern and
running-match candidates (`cnd`, `mu`) for the scanned sequence. -/

/-- The naive reference scan of the spec (§8): all start indices `i`
with `S[i:i+m] = K`, ascending. -/
def naiveMatches [DecidableEq α] (s k : List α) : List Nat :=
  (List.range (s.length + 1 - k.length)).filter
    (fun i => (s.drop i).take k.length = k)

/-- `bpred k j f`: the prefix of `k` of length `f` is a suffix of
`k[0:j]`. -/
def bpred [DecidableEq α] (k : List α) (j f : Nat) : Prop :=
  k.take f = (k.take j).drop (j - f)

instance [DecidableEq α] (k : List α) (j f : Nat) :
    Decidable (bpred k j f) := by unfold bpred; infer_instance

/-- The failure function of `k`: the length of the longest proper border
of `k[0:j]` (`0` for `j ≤ 1`). -/
def fail [DecidableEq α] (k : List α) (j : Nat) : Nat :=
  Nat.findGreatest (bpred k j) (j - 1)

/-- `cnd k s idx l`: the prefix of `k` of length `l` is a suffix of the
first `idx` items of `s` (and fits in both). -/
def cnd [DecidableEq α] (k s : List α) (idx l : Nat) : Prop :=
  l ≤ k.length ∧ l ≤ idx ∧ k.take l = (s.take idx).drop (idx - l)

instance [DecidableEq α] (k s : List α) (idx l : Nat) :
    Decidable (cnd k s idx l) := by unfold cnd; infer_instance

/-- `mu k s idx`: the length of the longest prefix of `k` that is a
suffix of the first `idx` items of `s` — the semantic value of the
`matched_lenght` variable at the top of each search-loop iteration. -/
def mu [DecidableEq α] (k s : List α) (idx : Nat) : Nat :=
  Nat.findGreatest (cnd k s idx) k.length

/-- The match starts emitted while scanning the rest of the sequence
from position `idx` on: position `idx + 1` ends a match exactly when the
whole of `k` is a suffix of `s[0:idx+1]`, and the corresponding start is
`idx + 1 - len(k)`.  This is the per-position restatement of the naive
scan that the search loop is proved against. -/
def naiveFrom [DecidableEq α] (k s : List α) (emit : Int → β) :
    List α → Nat → List β
  | [], _ => []
  | _ :: rest, idx =>
    if k.length ≤ idx + 1 ∧
        k = (s.take (idx + 1)).drop (idx + 1 - k.length) then
      emit ((idx : Int) + 1 - k.length) ::
        naiveFrom k s emit rest (idx + 1)
    else naiveFrom k s emit rest (idx + 1)

/-! ## Definitions: gazetteer matching (utilities.py lines 123–168) -/

/-- Python's `sorted` on pairs of integers compares lexicographically. -/
def pairLe (a b : Int × Int) : Prop :=
  a.1 < b.1 ∨ (a.1 = b.1 ∧ a.2 ≤ b.2)

instance : DecidableRel pairLe := fun a b => by
  unfold pairLe; infer_instance

/-- Insertion of a pair into a sorted list of pairs. -/
def insertPair (x : Int × Int) : List (Int × Int) → List (Int × Int)
  | [] => [x]
  | y :: ys => if pairLe x y then x :: y :: ys else y :: insertPair x ys

/-- `sorted(indexes)` (utilities.py line 133).  Lexicographic order on
pairs of integers is a total antisymmetric order, so the sorted
rearrangement of a list is unique and any correct sort computes exactly
what Python's `sorted` returns. -/
def sortPairs (l : List (Int × Int)) : List (Int × Int) :=
  l.foldr insertPair []

/-- `str.lower`, modelled character by character with `Char.toLower`
(Python's `lower` and Lean's `Char.toLower` agree on ASCII text). -/
def lowerStr (s : String) : String := String.mk (s.data.map Char.toLower)

/-- `apply_gazetteer(sentence, gazetteer, case_sensitive)` (utilities.py
lines 123–133).  The source lambda is
`case = lambda text: text.lower() if case_sensitive else text`: it folds
case when `case_sensitive` is TRUE and leaves the text alone when it is
false. -/
def apply_gazetteer (sentence : String) (gazetteer : List String)
    (case_sensitive : Bool) : Except String (List (Int × Int)) := do
  let case := fun (text : String) =>
    if case_sensitive then lowerStr text else text
  let s := (case sentence).toList
  let indexes ← gazetteer.foldlM (fun acc item => do
    let r ← search_subsequence_end s (case item).toList
    pure (acc ++ r)) ([] : List (Int × Int))
  pure (sortPairs indexes)

/-- The index-walking loop of `__format` (utilities.py lines 155–165):
for each index below `length`, emit `'I'` and pop when the index equals
the head of the sorted pending list, else emit `'O'`.  The Python
`WordBasedResult` wrapper (defined in `extractors`, outside src/) is
modelled as the bare flag string. -/
def maskGo : List Nat → Nat → Nat → List String
  | _, _, 0 => []
  | [], index, rem + 1 => "O" :: maskGo [] (index + 1) rem
  | p :: ps, index, rem + 1 =>
    if index = p then "I" :: maskGo ps (index + 1) rem
    else "O" :: maskGo (p :: ps) (index + 1) rem

/-- `__format(matching_elements, length)` (utilities.py lines 148–168):
the Python set becomes a `Finset Nat`, `sorted(...)` its sorted list;
`assert max(matching_elements) <= length` is the error case; the
`SentenceBasedResult` tuple (from `extractors`, outside src/) is
modelled as the list of flags. -/
def __format (matching_elements : Finset Nat) (length : Nat) :
    Except String (List String) :=
  if h : matching_elements.Nonempty then
    if matching_elements.max' h ≤ length then
      .ok (maskGo (matching_elements.sort (· ≤ ·)) 0 length)
    else .error "AssertionError"
  else .ok (List.replicate length "O")

/-- `matching_gazetteer(gazetteer, sentence)` (utilities.py lines
136–145): collect `range(start, start + len(item))` for every match of
every gazetteer item over the sentence's word forms (the Python set
`matchings` becomes a `Finset Nat`; `if subsequences:` is always true on
a generator object and is dropped), then format the mask. -/
def matching_gazetteer (gazetteer : List (List String))
    (sentence : Sentence) : Except String (List String) := do
  let word_forms := sentence.words.map Word.word_form
  let matchings ← gazetteer.foldlM (fun acc item => do
    let subsequences ← search_subsequence word_forms item
    pure (subsequences.foldl
      (fun m st => m ∪ Finset.Ico st.toNat (st.toNat + item.length)) acc))
    (∅ : Finset Nat)
  __format matchings word_forms.length

/-- A concrete one-word sentence used for counterexamples. -/
def oneWordSentence : Sentence :=
  { dependencies := [], indexed_dependencies := [], parsetree := "",
    words := [{ word_form := "on", character_offset_begin := 0,
                character_offset_end := 2, lemma_form := "on",
                named_entity_tag := "O", part_of_speech := "IN",
                attributes := [] }] }


/-! ## Definitions: the overwrite renderer (writers.py) -/

/-- One annotation's buffer mutation in the overwrite renderer
(writers.py lines 112–116 and 231–235): write the markup string into the
segment at index `start + text_offset` and blank (empty-string) every
segment index in `(text_offset + start, text_offset + end)`.  The span
is `(start, end, markup)`; the markup string, whose construction
(`element.normalise`, TIMEX3/EVENT formatting, classes outside src/) the
buffer code treats as opaque, is the third component.  Python raises
`IndexError` on an out-of-range assignment while `List.set` is a no-op
there; every theorem below keeps all writes in range, where the two
agree. -/
def write_span (text : List String) (text_offset : Nat)
    (a : Nat × Nat × String) : List String :=
  let text1 := text.set (a.1 + text_offset) a.2.2
  (List.range' (text_offset + a.1 + 1)
      (text_offset + a.2.1 - (text_offset + a.1 + 1))).foldl
    (fun b i => b.set i "") text1

/-- The buffer-mutation loop of `TempEval3Writer.write` (writers.py
lines 96–119) and `i2b2Writer.write_inline` (lines 213–238): starting
from `list(document.text)` (one single-character segment per character),
apply each predicted annotation's overwrite in order. -/
def overwrite_render (text : List String) (text_offset : Nat)
    (anns : List (Nat × Nat × String)) : List String :=
  anns.foldl (fun buf a => write_span buf text_offset a) text

/-- Well-formed rendered-span lists (spec §4.4: the overwrite mode
requires non-overlapping spans): ascending, non-empty, non-overlapping,
and in range of a buffer of `n` segments under offset `text_offset`;
`lb` is the lower bound for the next start. -/
def spansOK (text_offset lb n : Nat) : List (Nat × Nat × String) → Bool
  | [] => true
  | (s, e, _) :: rest =>
    decide (lb ≤ s) && decide (s < e) && decide (text_offset + e ≤ n) &&
      spansOK text_offset e n rest

/-- The expected rendering, written from the spec's words: the buffer
segments from `pos` on, joined in order, with each span's covered range
`[text_offset + start, text_offset + end)` replaced by its markup
string. -/
def spliced (buf : List String) (text_offset pos : Nat) :
    List (Nat × Nat × String) → String
  | [] => String.join (buf.drop pos)
  | (s, e, m) :: rest =>
    String.join ((buf.drop pos).take (text_offset + s - pos)) ++ m ++
      spliced buf text_offset (text_offset + e) rest

/-! ## Definitions: the label decoder and aligned documents (C8)

The Label-to-Span Decoder runs in the classifier post-processing, which
is not part of src/; it is modelled from the spec (§4.4). -/

/-- Modelled from the spec: parsing `"<symbol>-<tag>"` — a non-`O` label
carries its tag after the one-character symbol and the dash (§4.4,
§6). -/
def tagOf (label : String) : String := String.mk (label.data.drop 2)

/-- Modelled from the spec: the Label-to-Span Decoder of §4.4, a state
machine over the token stream whose state is the open span
`collecting(tag, start, end)` or `idle` (`none`): `O` closes any open
span; a non-`O` label continuing the same tag extends the open span to
the token's end; any other non-`O` label closes the open span and opens
a new one at the token. -/
def decode_labels : Option (String × Nat × Nat) →
    List ((Nat × Nat) × String) → List (String × Nat × Nat)
  | none, [] => []
  | some sp, [] => [sp]
  | none, ((ts, te), lab) :: rest =>
    if lab = "O" then decode_labels none rest
    else decode_labels (some ( tagOf lab, ts, te)) rest
  | some (tag, s, e), ((ts, te), lab) :: rest =>
    if lab = "O" then (tag, s, e) :: decode_labels none rest
    else if tagOf lab = tag then decode_labels (some (tag, s, te)) rest
    else (tag, s, e) :: decode_labels (some ( tagOf lab, ts, te)) rest

/-- The encoder side of the round trip: `format_annotation` applied to
each token in order, each token paired with its label. -/
def encodeTokens (anns : List Ann) (fmt : String)
    (toks : List (Nat × Nat)) : List ((Nat × Nat) × String) :=
  toks.map (fun t => (t, format_annotation t.1 t.2 anns fmt))

/-- The symbol resolved by the four stop conditions of the encoder loop
for one annotation, or `none` when the annotation misses the token. -/
def fireSym (ts te : Nat) (a : Ann) : Option Char :=
  if a.2.1 = ts ∧ a.2.2 = te then some 'W'
  else if a.2.2 = te then some 'E'
  else if a.2.1 = ts then some 'B'
  else if a.2.1 < ts ∧ a.2.2 > te then some 'I'
  else none

/-- A building block of an aligned document.  `gap g l` is `g`
untokenized characters (whitespace, punctuation) followed by one
outside token of `l` characters.  `span tag g l1 ls` is `g` untokenized
characters followed by one gold span: the span starts at its first
token (`l1` characters) and, for each `(gi, li)` in `ls`, skips `gi`
untokenized characters inside the span and covers one further token of
`li` characters; the span ends at its last token's end.  Since every
token carries an arbitrary leading skip, a block list generates exactly
the aligned documents: any ascending stream of pairwise-disjoint tokens
with arbitrary untokenized characters before and between them, together
with any non-overlapping gold spans, each starting at the start of the
first token it covers and ending at the end of the last. -/
inductive Block where
  | gap : Nat → Nat → Block
  | span : String → Nat → Nat → List (Nat × Nat) → Block

/-- The characters consumed by the further tokens of a span: each entry
`(g, l)` skips `g` in-span untokenized characters and covers a token of
`l` characters. -/
def lensSum : List (Nat × Nat) → Nat
  | [] => 0
  | (g, l) :: ls => g + l + lensSum ls

/-- The further tokens of a span, generated from offset `p`: each entry
`(g, l)` skips `g` characters and emits the token `(p+g, p+g+l)`. -/
def tokensOfLens (p : Nat) : List (Nat × Nat) → List (Nat × Nat)
  | [] => []
  | (g, l) :: ls => (p + g, p + g + l) :: tokensOfLens (p + g + l) ls

/-- The token list of an aligned document. -/
def tokensOf (p : Nat) : List Block → List (Nat × Nat)
  | [] => []
  | .gap g l :: bs => (p + g, p + g + l) :: tokensOf (p + g + l) bs
  | .span _ g l1 ls :: bs =>
    (p + g, p + g + l1) :: (tokensOfLens (p + g + l1) ls
      ++ tokensOf (p + g + l1 + lensSum ls) bs)

/-- The gold annotations of an aligned document, in document order. -/
def annsOf (p : Nat) : List Block → List Ann
  | [] => []
  | .gap g l :: bs => annsOf (p + g + l) bs
  | .span tag g l1 ls :: bs =>
    (tag, p + g, p + g + l1 + lensSum ls)
      :: annsOf (p + g + l1 + lensSum ls) bs

/-- Well-formed block lists: non-empty tokens, and no two consecutive
same-tag spans — two same-tag spans on consecutive tokens of the stream
are merged by the decoder, however many untokenized characters separate
them. -/
def blocksOK : List Block → Bool
  | [] => true
  | .gap _ l :: bs => decide (1 ≤ l) && blocksOK bs
  | .span tag _ l1 ls :: bs =>
    decide (1 ≤ l1) && ls.all (fun gl => decide (1 ≤ gl.2)) &&
      (match bs with
       | .span tag2 _ _ _ :: _ => decide (tag ≠ tag2)
       | _ => true) && blocksOK bs

/-- The decoder-state side condition of the round-trip induction: an
open span's tag must differ from the tag of an immediately following
span block. -/
def nextTagOK (bs : List Block) (tg : String) : Prop :=
  match bs with
  | .span tag2 _ _ _ :: _ => tag2 ≠ tg
  | _ => True

/-- Whether a block list contains at least one gold span. -/
def hasSpan : List Block → Bool
  | [] => false
  | .gap _ _ :: bs => hasSpan bs
  | .span _ _ _ _ :: _ => true


/-! ## Theorems -/

/-! ### C5 groundwork: prefix-suffix border algebra -/

section KMP

variable {α : Type} [DecidableEq α]

lemma bpred_zero (k : List α) (j : Nat) : bpred k j 0 := by
  unfold bpred
  rw [List.take_zero, Nat.sub_zero, List.drop_eq_nil_of_le]
  exact List.length_take_le j k

lemma fail_le (k : List α) (j : Nat) : fail k j ≤ j - 1 :=
  Nat.findGreatest_le _

lemma fail_lt {k : List α} {j : Nat} (hj : 1 ≤ j) : fail k j < j :=
  lt_of_le_of_lt (fail_le k j) (by omega)

lemma bpred_fail (k : List α) (j : Nat) : bpred k j (fail k j) :=
  Nat.findGreatest_spec (Nat.zero_le _) (bpred_zero k j)

lemma fail_is_greatest {k : List α} {j f : Nat} (h : bpred k j f)
    (hf : f ≤ j - 1) : f ≤ fail k j :=
  Nat.le_findGreatest hf h

/-- Borders nest: a shorter and a longer border of the same prefix make
the shorter a border of the longer. -/
lemma bpred_nest {k : List α} {j f₁ f₂ : Nat} (h1 : bpred k j f₁)
    (h2 : bpred k j f₂) (hle : f₁ ≤ f₂) (hj : f₂ ≤ j) : bpred k f₂ f₁ := by
  unfold bpred at h1 h2 ⊢
  rw [h2, List.drop_drop, show (j - f₂) + (f₂ - f₁) = j - f₁ by omega]
  exact h1

/-- Borders lift: a border of a border is a border. -/
lemma bpred_trans {k : List α} {j f₁ f₂ : Nat} (h2 : bpred k j f₂)
    (h1 : bpred k f₂ f₁) (hle : f₁ ≤ f₂) (hj : f₂ ≤ j) : bpred k j f₁ := by
  unfold bpred at h1 h2 ⊢
  rw [h1, h2, List.drop_drop, show (j - f₂) + (f₂ - f₁) = j - f₁ by omega]

/-- Extending a border of `k[0:p]` by one position. -/
lemma bpred_succ_iff {k : List α} {p f : Nat} (hf : f ≤ p)
    (hp : p < k.length) :
    bpred k (p + 1) (f + 1) ↔ (bpred k p f ∧ k.get? f = k.get? p) := by
  unfold bpred
  have hflen : f < k.length := lt_of_le_of_lt hf hp
  have hkf : k.get? f = some (k.get ⟨f, hflen⟩) := List.get?_eq_get hflen
  have hkp : k.get? p = some (k.get ⟨p, hp⟩) := List.get?_eq_get hp
  have htf : k.take (f + 1) = k.take f ++ [k.get ⟨f, hflen⟩] := by
    rw [List.take_succ, ← List.get?_eq_getElem?, hkf, Option.toList_some]
  have htp : k.take (p + 1) = k.take p ++ [k.get ⟨p, hp⟩] := by
    rw [List.take_succ, ← List.get?_eq_getElem?, hkp, Option.toList_some]
  rw [htf, htp, show p + 1 - (f + 1) = p - f by omega]
  rw [List.drop_append_of_le_length
    (by rw [List.length_take]; omega)]
  constructor
  · intro h
    obtain h1 := List.append_inj' h (by simp)
    refine ⟨h1.1, ?_⟩
    rw [hkf, hkp]
    exact congrArg some (by simpa using h1.2)
  · intro ⟨h1, h2⟩
    rw [hkf, hkp] at h2
    obtain h2 := Option.some.inj h2
    rw [h1, h2]

lemma cnd_zero (k s : List α) (idx : Nat) : cnd k s idx 0 := by
  refine ⟨Nat.zero_le _, Nat.zero_le _, ?_⟩
  rw [List.take_zero, Nat.sub_zero, List.drop_eq_nil_of_le]
  exact List.length_take_le idx s

lemma mu_le (k s : List α) (idx : Nat) : mu k s idx ≤ k.length :=
  Nat.findGreatest_le _

lemma cnd_mu (k s : List α) (idx : Nat) : cnd k s idx (mu k s idx) :=
  Nat.findGreatest_spec (Nat.zero_le _) (cnd_zero k s idx)

lemma mu_is_greatest {k s : List α} {l idx : Nat} (h : cnd k s idx l) :
    l ≤ mu k s idx :=
  Nat.le_findGreatest h.1 h

lemma mu_zero (k s : List α) : mu k s 0 = 0 :=
  Nat.le_zero.mp (cnd_mu k s 0).2.1

/-- Running-match candidates nest into borders of `k`. -/
lemma cnd_nest {k s : List α} {l₁ l₂ idx : Nat} (h1 : cnd k s idx l₁)
    (h2 : cnd k s idx l₂) (hle : l₁ ≤ l₂) : bpred k l₂ l₁ := by
  obtain ⟨hm2, hi2, he2⟩ := h2
  unfold bpred
  rw [he2, List.drop_drop, show (idx - l₂) + (l₂ - l₁) = idx - l₁ by omega]
  exact h1.2.2

/-- A border of a running-match candidate is itself a candidate. -/
lemma cnd_of_bpred {k s : List α} {l₁ l₂ idx : Nat} (h2 : cnd k s idx l₂)
    (hb : bpred k l₂ l₁) (hle : l₁ ≤ l₂) : cnd k s idx l₁ := by
  obtain ⟨hm2, hi2, he2⟩ := h2
  refine ⟨le_trans hle hm2, le_trans hle hi2, ?_⟩
  unfold bpred at hb
  rw [hb, he2, List.drop_drop,
    show (idx - l₂) + (l₂ - l₁) = idx - l₁ by omega]

/-- Extending a running-match candidate by one scanned item. -/
lemma cnd_succ_iff {k s : List α} {l idx : Nat} (hidx : idx < s.length)
    (hl1 : l + 1 ≤ k.length) (hl2 : l + 1 ≤ idx + 1) :
    cnd k s (idx + 1) (l + 1) ↔
      (cnd k s idx l ∧ k.get? l = s.get? idx) := by
  have hllen : l < k.length := hl1
  have hli : l ≤ idx := by omega
  have hkl : k.get? l = some (k.get ⟨l, hllen⟩) := List.get?_eq_get hllen
  have hsi : s.get? idx = some (s.get ⟨idx, hidx⟩) := List.get?_eq_get hidx
  have htk : k.take (l + 1) = k.take l ++ [k.get ⟨l, hllen⟩] := by
    rw [List.take_succ, ← List.get?_eq_getElem?, hkl, Option.toList_some]
  have hts : s.take (idx + 1) = s.take idx ++ [s.get ⟨idx, hidx⟩] := by
    rw [List.take_succ, ← List.get?_eq_getElem?, hsi, Option.toList_some]
  unfold cnd
  rw [htk, hts, show idx + 1 - (l + 1) = idx - l by omega]
  rw [List.drop_append_of_le_length
    (by rw [List.length_take]; omega)]
  constructor
  · intro ⟨_, _, h⟩
    obtain h1 := List.append_inj' h (by simp)
    refine ⟨⟨by omega, hli, h1.1⟩, ?_⟩
    rw [hkl, hsi]
    exact congrArg some (by simpa using h1.2)
  · intro ⟨⟨_, _, h1⟩, h2⟩
    rw [hkl, hsi] at h2
    obtain h2 := Option.some.inj h2
    refine ⟨hl1, hl2, ?_⟩
    rw [h1, h2]

end KMP


/-- A non-`O` formatted label is never the bare string `"O"` (it has at
least the symbol and the dash in it). -/
lemma symbol_dash_ne_O (c : Char) (tf : String) :
    String.singleton c ++ "-" ++ tf ≠ "O" := by
  intro h
  have h' := congrArg String.length h
  rw [String.length_append, String.length_append] at h'
  have hc : (String.singleton c).length = 1 := rfl
  have hd : ("-" : String).length = 1 := rfl
  have hO : ("O" : String).length = 1 := rfl
  omega

/-- If every annotation of a non-empty list misses the token, the loop ends
in state `(some 'O', last tag)`; in particular the first component is
`some 'O'` whatever state it started from. -/
lemma faLoop_miss (ts te : Nat) :
    ∀ (anns : List Ann), anns ≠ [] → (∀ a ∈ anns, ¬ fires ts te a) →
      ∀ sl tf, (faLoop ts te sl tf anns).1 = some 'O'
  | [], h, _ => absurd rfl h
  | (tag, so, eo) :: rest, _, hmiss => by
    intro sl tf
    have hm : ¬ fires ts te (tag, so, eo) := hmiss _ (List.mem_cons_self _ _)
    simp only [fires, not_or, not_and] at hm
    obtain ⟨h1, h2, h3, h4⟩ := hm
    simp only [faLoop]
    rw [if_neg, if_neg h2, if_neg h3, if_neg]
    · cases rest with
      | nil => simp [faLoop]
      | cons b bs =>
        exact faLoop_miss ts te (b :: bs) (by simp)
          (fun a ha => hmiss a (List.mem_cons_of_mem _ ha)) (some 'O') tag
    · intro hc; exact h4 hc.1 hc.2
    · intro hc; exact (h1 hc.1 hc.2).elim

/-- C1.  The claim expects the labels `["O", "B-EVENT", "O", "O"]` on the
concrete scenario; the code instead yields `"I-EVENT"` on the second token:
the whole-match condition (checked first) resolves the label to `'W'`, and
`'W'` is not in the declared alphabet `"BIO"`, so it collapses to `'I'`,
not to `'B'`. -/
theorem c1_counterexample :
    ([(0, 2), (3, 7), (8, 10), (11, 17)] : List (Nat × Nat)).map
        (fun t => format_annotation t.1 t.2 [("EVENT", 3, 7)] "BIO")
      ≠ ["O", "B-EVENT", "O", "O"] := by decide

/-- C1 (amended).  For the document with text "He left on Monday", tokens
`[(0,2),(3,7),(8,10),(11,17)]`, a single gold annotation `(EVENT, (3,7))`
and alphabet `{B,I,O}`, the encoder produces exactly
`["O", "I-EVENT", "O", "O"]`: the whole-match label `W` resolved for the
token `(3,7)` is outside the alphabet and collapses to `I`. -/
theorem c1_concrete_scenario :
    ([(0, 2), (3, 7), (8, 10), (11, 17)] : List (Nat × Nat)).map
        (fun t => format_annotation t.1 t.2 [("EVENT", 3, 7)] "BIO")
      = ["O", "I-EVENT", "O", "O"] := by decide

/-- C2.  The claim fails as stated: (a) on the empty annotation list the
loop never runs, the label stays `None`, is replaced by `'I'` and the
result is `"I-"` rather than `"O"`; (b) when `'O'` is not in the declared
alphabet, the exhausted-loop label `'O'` is itself replaced by `'I'` and
the result is `"I-<last tag>"`. -/
theorem c2_counterexample :
    format_annotation 0 2 ([] : List Ann) "BIO" ≠ "O" ∧
      format_annotation 0 2 [("EVENT", 10, 20)] "BI" ≠ "O" := by decide

/-- Shared form of the exhausted-loop result (used both by the C2
theorem and by the round-trip analysis). -/
lemma format_annotation_miss (ts te : Nat) (anns : List Ann) (fmt : String)
    (hne : anns ≠ []) (hmiss : ∀ a ∈ anns, ¬ fires ts te a)
    (hO : 'O' ∈ fmt.toList) :
    format_annotation ts te anns fmt = "O" := by
  have h := faLoop_miss ts te anns hne hmiss none ""
  have hO' : 'O' ∈ fmt.data := hO
  simp [ format_annotation, h, resolveLabel, hO']

/-- C2 (amended).  For every token range, every *non-empty* annotation list
none of whose elements triggers one of the four stop conditions, and every
alphabet that contains `'O'`, `format_annotation` returns exactly `"O"`. -/
theorem c2_exhausted_loop_is_O (ts te : Nat) (anns : List Ann) (fmt : String)
    (hne : anns ≠ []) (hmiss : ∀ a ∈ anns, ¬ fires ts te a)
    (hO : 'O' ∈ fmt.toList) :
    format_annotation ts te anns fmt = "O" :=
  format_annotation_miss ts te anns fmt hne hmiss hO

/-- Witness for C2 (amended) at a concrete input. -/
theorem c2_exhausted_loop_is_O_witness :
    format_annotation 0 2 [("EVENT", 10, 20)] "BIO" = "O" :=
  c2_exhausted_loop_is_O 0 2 [("EVENT", 10, 20)] "BIO" (by decide)
    (by decide) (by decide)

/-- C3.  Two parts of the claim fail on the code: (a) with alphabet `"BO"`
a resolved `'W'` collapses to `'I'` and the returned label `"I-T"` has a
leading symbol that is neither in the alphabet nor `'O'`; (b) with alphabet
`"BI"` a resolved `'O'` *is* replaced (by `'I'`), producing `"I-T"`. -/
theorem c3_counterexample :
    ( format_annotation 0 2 [("T", 0, 2)] "BO" = "I-T" ∧
        'I' ∉ "BO".toList ∧ ("I-T" : String) ≠ "O") ∧
      format_annotation 0 2 [("T", 10, 20)] "BI" = "I-T" := by decide

/-- C3 (amended).  For every token, annotation list and alphabet, the label
returned by `format_annotation` is either `"O"` — which happens only when
`'O'` is a member of the alphabet — or of the form `"<c>-<tag>"` where the
leading symbol `c` is a member of the alphabet or the fallback `'I'`; any
resolved symbol outside the alphabet (including a resolved `'O'` and the
undefined symbol left by an empty list) is replaced by `'I'`. -/
theorem c3_alphabet_closure (ts te : Nat) (anns : List Ann) (fmt : String) :
    ( format_annotation ts te anns fmt ≠ "O" ∨ 'O' ∈ fmt.toList) ∧
      ( format_annotation ts te anns fmt = "O" ∨
        ∃ c tf, format_annotation ts te anns fmt
            = String.singleton c ++ "-" ++ tf ∧ (c ∈ fmt.toList ∨ c = 'I')) := by
  simp only [ format_annotation]
  set r := faLoop ts te none "" anns with hrdef
  by_cases hO : resolveLabel fmt r.1 = 'O'
  · rw [if_pos hO]
    have hmem : 'O' ∈ fmt.toList := by
      rcases hsl : r.1 with _ | c <;> rw [hsl] at hO <;>
        simp only [resolveLabel] at hO
      · exact absurd hO (by decide)
      · by_cases hc : c ∈ fmt.toList
        · rw [if_pos hc] at hO; exact hO ▸ hc
        · rw [if_neg hc] at hO; exact absurd hO (by decide)
    exact ⟨Or.inr hmem, Or.inl rfl⟩
  · rw [if_neg hO]
    refine ⟨Or.inl (symbol_dash_ne_O _ _), Or.inr ⟨resolveLabel fmt r.1, r.2, rfl, ?_⟩⟩
    rcases hsl : r.1 with _ | c
    · simp [resolveLabel]
    · simp only [resolveLabel]
      by_cases hc : c ∈ fmt.toList
      · rw [if_pos hc]; exact Or.inl hc
      · rw [if_neg hc]; exact Or.inr rfl

lemma dictGet_dictSet_same (attrs : List (String × String)) (k v : String) :
    dictGet (dictSet attrs k v) k = some v := by
  induction attrs with
  | nil => simp [dictSet, dictGet]
  | cons a rest ih =>
    obtain ⟨k', v'⟩ := a
    by_cases h : k' = k
    · simp [dictSet, dictGet, h]
    · simp [dictSet, dictGet, h, ih]

lemma dictGet_dictSet_other (attrs : List (String × String)) (k v k' : String)
    (h : k' ≠ k) : dictGet (dictSet attrs k v) k' = dictGet attrs k' := by
  have hkk : k ≠ k' := fun hc => h hc.symm
  induction attrs with
  | nil =>
    simp only [dictSet, dictGet]
    rw [if_neg hkk]
  | cons a rest ih =>
    obtain ⟨ka, va⟩ := a
    simp only [dictSet]
    by_cases hk : ka = k
    · rw [if_pos hk]
      simp only [dictGet]
      rw [if_neg hkk, if_neg (fun hc : ka = k' => hkk (hk ▸ hc))]
    · rw [if_neg hk]
      simp only [dictGet]
      by_cases hk' : ka = k'
      · rw [if_pos hk', if_pos hk']
      · rw [if_neg hk', if_neg hk', ih]

/-- C10.  `store_gold_annotations` sets `annotation_format`, leaves every
other document field unchanged, and rewrites each sentence word-by-word:
the `CLASS` attribute of every word becomes exactly the
`format_annotation` label computed from the word's offsets and the
document's gold annotations, while the word's form, offsets, lemma, named
entity tag, part of speech, every other attribute, and the sentence's
remaining fields keep their previous values. -/
theorem c10_store_gold_annotations_frame (d : Document) (fmt : String) :
    (d.store_gold_annotations fmt).annotation_format = fmt ∧
    (d.store_gold_annotations fmt).name = d.name ∧
    (d.store_gold_annotations fmt).file_path = d.file_path ∧
    (d.store_gold_annotations fmt).dct = d.dct ∧
    (d.store_gold_annotations fmt).text = d.text ∧
    (d.store_gold_annotations fmt).coref = d.coref ∧
    (d.store_gold_annotations fmt).gold_annotations = d.gold_annotations ∧
    (d.store_gold_annotations fmt).predicted_annotations
      = d.predicted_annotations ∧
    List.Forall₂ (fun s' s =>
        s'.dependencies = s.dependencies ∧
        s'.indexed_dependencies = s.indexed_dependencies ∧
        s'.parsetree = s.parsetree ∧
        List.Forall₂ (fun w' w =>
            w'.word_form = w.word_form ∧
            w'.character_offset_begin = w.character_offset_begin ∧
            w'.character_offset_end = w.character_offset_end ∧
            w'.lemma_form = w.lemma_form ∧
            w'.named_entity_tag = w.named_entity_tag ∧
            w'.part_of_speech = w.part_of_speech ∧
            dictGet w'.attributes "CLASS"
              = some ( format_annotation w.character_offset_begin
                  w.character_offset_end d.gold_annotations fmt) ∧
            ∀ k, k ≠ "CLASS" →
              dictGet w'.attributes k = dictGet w.attributes k)
          s'.words s.words)
      (d.store_gold_annotations fmt).sentences d.sentences := by
  refine ⟨rfl, rfl, rfl, rfl, rfl, rfl, rfl, rfl, ?_⟩
  simp only [Document.store_gold_annotations]
  rw [List.forall₂_map_left_iff, List.forall₂_same]
  intro s _
  refine ⟨rfl, rfl, rfl, ?_⟩
  rw [List.forall₂_map_left_iff, List.forall₂_same]
  intro w _
  exact ⟨rfl, rfl, rfl, rfl, rfl, rfl, dictGet_dictSet_same _ _ _,
    fun k hk => dictGet_dictSet_other _ _ _ _ hk⟩

/-- C6.  For every sequence, the subsequence search invoked with an empty
pattern fails with the `InvalidArgument` condition (the Python
`AssertionError` with message `'The key is empty.'`), rather than
yielding matches or returning normally — in both the `end=False` and the
`end=True` calling conventions. -/
theorem c6_empty_key_errors {α : Type} [DecidableEq α] (sequence : List α) :
    search_subsequence sequence ([] : List α) = .error "The key is empty." ∧
      search_subsequence_end sequence ([] : List α)
        = .error "The key is empty." := by
  constructor <;> rfl

/-- C4 (code bug).  The gazetteer item `"monday"` differs from the text
`"Monday"` only in letter case, yet with the case-sensitivity option
*disabled* (`case_sensitive=False`, the default) `apply_gazetteer` finds
no match, and with the option *enabled* it case-folds and finds the
match: the lambda on line 128 has the branches of its conditional
swapped. -/
theorem c4_case_lambda_swapped :
    apply_gazetteer "Monday" ["monday"] false = .ok [] ∧
      apply_gazetteer "Monday" ["monday"] true = .ok [(0, 5)] := by
  constructor <;> rfl


/-! ### C5 stage A: the shift table computes `j - fail k j` -/

section KMP

variable {α : Type} [DecidableEq α]

lemma getD_set_self (l : List Nat) (i v d : Nat) (h : i < l.length) :
    (l.set i v).getD i d = v := by
  rw [List.getD_eq_getElem _ _ (by rw [List.length_set]; exact h)]
  exact List.getElem_set_self _

lemma getD_set_other (l : List Nat) {i j : Nat} (v d : Nat) (h : i ≠ j) :
    (l.set i v).getD j d = l.getD j d := by
  rcases Nat.lt_or_ge j l.length with hj | hj
  · rw [List.getD_eq_getElem _ _ (by rw [List.length_set]; exact hj),
      List.getD_eq_getElem _ _ hj]
    exact List.getElem_set_ne h _
  · rw [List.getD_eq_default _ _ (by rw [List.length_set]; exact hj),
      List.getD_eq_default _ _ hj]

/-- The descent of the shift-table inner loop: starting from a proper
border `f` of `k[0:p]` above which no border extends by `k[p]`, the loop
computes `shifts_table[p+1] = (p+1) - fail k (p+1)`.  The state `shift`
of the loop encodes the border as `shift = p - f`. -/
lemma shiftWhile_desc (k : List α) (p : Nat) (hp : p < k.length)
    (table : List Nat) (ht0 : table.getD 0 1 = 1)
    (ht : ∀ j, 1 ≤ j → j ≤ p → table.getD j 1 = j - fail k j) :
    ∀ (f : Nat), f < p → bpred k p f →
      (∀ f'', f < f'' → f'' < p → bpred k p f'' →
        k.get? f'' ≠ k.get? p) →
      ∀ fuel, f + 2 ≤ fuel →
        shiftWhile k p table (p - f) fuel = (p + 1) - fail k (p + 1) := by
  intro f
  induction f using Nat.strong_induction_on with
  | _ f IH =>
  intro hfp hbord hH fuel hfuel
  obtain ⟨fuel', rfl⟩ : ∃ fuel', fuel = fuel' + 1 :=
    ⟨fuel - 1, by omega⟩
  have hpf : p - (p - f) = f := by omega
  by_cases hkf : k.get? f = k.get? p
  · -- the border extends: the loop exits with `shift = p - f` and
    -- `fail k (p+1) = f + 1`
    have hguard : ¬ (p - f ≤ p ∧ k.get? p ≠ k.get? (p - (p - f))) := by
      rw [hpf]
      intro hc
      exact hc.2 hkf.symm
    rw [shiftWhile, if_neg hguard]
    have hsucc : bpred k (p + 1) (f + 1) :=
      (bpred_succ_iff (le_of_lt hfp) hp).mpr ⟨hbord, hkf⟩
    have hge : f + 1 ≤ fail k (p + 1) :=
      fail_is_greatest hsucc (by omega)
    have hle : fail k (p + 1) ≤ f + 1 := by
      by_contra hgt
      push_neg at hgt
      have hg1 : 1 ≤ fail k (p + 1) := by omega
      have hgp : fail k (p + 1) ≤ p := by
        have := fail_le k (p + 1); omega
      obtain ⟨g, hg⟩ : ∃ g, fail k (p + 1) = g + 1 :=
        ⟨fail k (p + 1) - 1, by omega⟩
      have hb : bpred k (p + 1) (g + 1) := hg ▸ bpred_fail k (p + 1)
      obtain ⟨hb', heq⟩ := (bpred_succ_iff (by omega) hp).mp hb
      exact hH g (by omega) (by omega) hb' heq
    have : fail k (p + 1) = f + 1 := le_antisymm hle hge
    omega
  · -- the border does not extend: descend to `fail k f` (or give up)
    have hguard : (p - f ≤ p ∧ k.get? p ≠ k.get? (p - (p - f))) := by
      rw [hpf]
      exact ⟨by omega, fun hc => hkf hc.symm⟩
    rw [shiftWhile, if_pos hguard, hpf]
    rcases Nat.eq_zero_or_pos f with hf0 | hf1
    · -- `f = 0`: `shift` passes `p`, the loop exits with `p + 1` and
      -- `fail k (p+1) = 0`
      subst hf0
      rw [ht0]
      obtain ⟨fuel'', rfl⟩ : ∃ fuel'', fuel' = fuel'' + 1 :=
        ⟨fuel' - 1, by omega⟩
      have hguard2 : ¬ (p - 0 + 1 ≤ p ∧
          k.get? p ≠ k.get? (p - (p - 0 + 1))) := by
        intro hc; omega
      rw [shiftWhile, if_neg hguard2]
      have hfail0 : fail k (p + 1) = 0 := by
        by_contra hne
        have hg1 : 1 ≤ fail k (p + 1) := Nat.pos_of_ne_zero hne
        have hgp : fail k (p + 1) ≤ p := by
          have := fail_le k (p + 1); omega
        obtain ⟨g, hg⟩ : ∃ g, fail k (p + 1) = g + 1 :=
          ⟨fail k (p + 1) - 1, by omega⟩
        have hb : bpred k (p + 1) (g + 1) := hg ▸ bpred_fail k (p + 1)
        obtain ⟨hb', heq⟩ := (bpred_succ_iff (by omega) hp).mp hb
        rcases Nat.eq_zero_or_pos g with hg0 | hgpos
        · subst hg0; exact hkf heq
        · exact hH g hgpos (by omega) hb' heq
      omega
    · -- `f ≥ 1`: the table entry at `f` is `f - fail k f`, so the loop
      -- moves to the next border `fail k f`
      have htf : table.getD f 1 = f - fail k f := ht f hf1 (by omega)
      rw [htf]
      have hfail_lt : fail k f < f := fail_lt hf1
      have harith : p - f + (f - fail k f) = p - fail k f := by
        have := fail_le k f; omega
      rw [harith]
      have hbf : bpred k p (fail k f) :=
        bpred_trans hbord (bpred_fail k f) (by omega) (by omega)
      have hH' : ∀ f'', fail k f < f'' → f'' < p → bpred k p f'' →
          k.get? f'' ≠ k.get? p := by
        intro f'' hgt hlt hb''
        rcases Nat.lt_trichotomy f'' f with hlt' | heq' | hgt'
        · -- a border between `fail k f` and `f` cannot exist
          exfalso
          have hnest : bpred k f f'' :=
            bpred_nest hb'' hbord (by omega) (by omega)
          have : f'' ≤ fail k f := fail_is_greatest hnest (by omega)
          omega
        · subst heq'; exact hkf
        · exact hH f'' hgt' hlt hb''
      exact IH (fail k f) hfail_lt (by omega) hbf hH' fuel' (by omega)

/-- Invariant-carrying induction over the table-construction loop. -/
lemma buildTableAux_spec (k : List α) :
    ∀ (cnt p : Nat) (table : List Nat) (shift : Nat),
      p + cnt = k.length →
      table.length = k.length + 1 →
      table.getD 0 1 = 1 →
      (∀ j, 1 ≤ j → j ≤ p → table.getD j 1 = j - fail k j) →
      (∀ j, p < j → j ≤ k.length → table.getD j 1 = 1) →
      (if p = 0 then shift = 1 else shift = p - fail k p) →
      (buildTableAux k (List.range' p cnt) table shift).length
          = k.length + 1 ∧
        (buildTableAux k (List.range' p cnt) table shift).getD 0 1 = 1 ∧
        ∀ j, 1 ≤ j → j ≤ k.length →
          (buildTableAux k (List.range' p cnt) table shift).getD j 1
            = j - fail k j := by
  intro cnt
  induction cnt with
  | zero =>
    intro p table shift hsum hlen h0 hlow _ _
    simp only [List.range', buildTableAux]
    exact ⟨hlen, h0, fun j h1 h2 => hlow j h1 (by omega)⟩
  | succ cnt IH =>
    intro p table shift hsum hlen h0 hlow hhigh hshift
    have hp : p < k.length := by omega
    rw [show List.range' p (cnt + 1) = p :: List.range' (p + 1) cnt from rfl]
    simp only [buildTableAux]
    set shift' := shiftWhile k p table shift (p + 1) with hs'
    have hshift' : shift' = (p + 1) - fail k (p + 1) := by
      rcases Nat.eq_zero_or_pos p with hp0 | hp1
      · -- `p = 0`: the guard `shift ≤ p` fails at once and the result
        -- is the initial `shift = 1`; `fail k 1 = 0`
        subst hp0
        rw [if_pos rfl] at hshift
        subst hshift
        have hfail1 : fail k 1 = 0 := by
          unfold fail
          simp
        rw [hs', hfail1]
        rw [shiftWhile, if_neg (by intro hc; omega)]
      · rw [if_neg (by omega)] at hshift
        subst hshift
        exact shiftWhile_desc k p hp table h0 hlow (fail k p)
          (fail_lt hp1) (bpred_fail k p)
          (fun f'' hgt hlt hb => absurd (fail_is_greatest hb (by omega))
            (by omega))
          (p + 1) (by have := fail_le k p; omega)
    have hlen' : (table.set (p + 1) shift').length = k.length + 1 := by
      rw [List.length_set]; exact hlen
    refine IH (p + 1) (table.set (p + 1) shift') shift' (by omega) hlen'
      ?_ ?_ ?_ ?_
    · rw [getD_set_other _ _ _ (by omega)]; exact h0
    · intro j h1 h2
      rcases Nat.lt_or_ge j (p + 1) with hj | hj
      · rw [getD_set_other _ _ _ (by omega)]
        exact hlow j h1 (by omega)
      · have : j = p + 1 := by omega
        subst this
        rw [getD_set_self _ _ _ _ (by omega)]
        exact hshift'
    · intro j hj1 hj2
      rw [getD_set_other _ _ _ (by omega)]
      exact hhigh j (by omega) hj2
    · rw [if_neg (by omega)]
      exact hshift'

/-- Stage A: the shift table of a non-empty pattern has length
`len(key) + 1`, entry `1` at index `0`, and entry `j - fail k j` at every
index `1 ≤ j ≤ len(key)`. -/
lemma shifts_table_spec (k : List α) :
    (shifts_table k).length = k.length + 1 ∧
      (shifts_table k).getD 0 1 = 1 ∧
      ∀ j, 1 ≤ j → j ≤ k.length →
        (shifts_table k).getD j 1 = j - fail k j := by
  unfold shifts_table
  rw [List.range_eq_range']
  refine buildTableAux_spec k k.length 0 _ 1 (by omega)
    (List.length_replicate _ _) ?_ (fun j h1 h2 => by omega) ?_ (by simp)
  · rw [List.getD_eq_getElem _ _ (by rw [List.length_replicate]; omega)]
    exact List.getElem_replicate _ _
  · intro j hj1 hj2
    rw [List.getD_eq_getElem _ _ (by rw [List.length_replicate]; omega)]
    exact List.getElem_replicate _ _

/-- Every entry of the shift table (read through the loops' `getD`) is
positive. -/
lemma shifts_table_pos (k : List α) (j : Nat) :
    1 ≤ (shifts_table k).getD j 1 := by
  obtain ⟨hlen, h0, hspec⟩ := shifts_table_spec k
  rcases Nat.lt_or_ge j (k.length + 1) with hj | hj
  · rcases Nat.eq_zero_or_pos j with rfl | hj1
    · omega
    · rw [hspec j hj1 (by omega)]
      have := fail_le k j; omega
  · rw [List.getD_eq_default _ _ (by omega)]

end KMP


/-! ### C5 stage B: the search loop yields exactly the naive matches -/

section KMP

variable {α : Type} [DecidableEq α]

/-- The descent of the search inner loop: starting from a running-match
candidate `l` above which no candidate extends by the next item `x`, the
loop computes the next running-match value `mu k s (idx+1)`; its exit
state is `(idx + 1 - mu', mu' - 1)` in all cases. -/
lemma matchWhile_spec (k s : List α) (hm : 0 < k.length) (x : α)
    (idx : Nat) (hidx : idx < s.length) (hx : s.get? idx = some x) :
    ∀ l : Nat, l ≤ k.length → cnd k s idx l →
      (∀ l'', l < l'' → cnd k s idx l'' →
        ¬ (l'' < k.length ∧ k.get? l'' = some x)) →
      ∀ fuel, l + 2 ≤ fuel →
        matchWhile k (shifts_table k) x ((idx : Int) - l, (l : Int)) fuel
          = ((idx : Int) + 1 - mu k s (idx + 1),
             (mu k s (idx + 1) : Int) - 1) := by
  obtain ⟨htlen, ht0, htspec⟩ := shifts_table_spec k
  intro l
  induction l using Nat.strong_induction_on with
  | _ l IH =>
  intro hlm hcnd hH fuel hfuel
  obtain ⟨fuel', rfl⟩ : ∃ fuel', fuel = fuel' + 1 := ⟨fuel - 1, by omega⟩
  have htoNat : ((l : Int)).toNat = l := Int.toNat_natCast l
  by_cases hQ : l < k.length ∧ k.get? l = some x
  · -- the candidate extends: the loop exits and `mu (idx+1) = l + 1`
    have hguard : ¬ ((l : Int) = (k.length : Int) ∨
        (0 ≤ (l : Int) ∧ k.get? ((l : Int)).toNat ≠ some x)) := by
      rw [htoNat]
      intro hc
      rcases hc with hc | hc
      · have : l = k.length := by exact_mod_cast hc
        omega
      · exact hc.2 hQ.2
    rw [matchWhile, if_neg hguard]
    have hsucc : cnd k s (idx + 1) (l + 1) :=
      (cnd_succ_iff hidx (by have := hQ.1; omega)
          (by have := hcnd.2.1; omega)).mpr
        ⟨hcnd, by rw [hQ.2, hx]⟩
    have hge : l + 1 ≤ mu k s (idx + 1) := mu_is_greatest hsucc
    have hle : mu k s (idx + 1) ≤ l + 1 := by
      by_contra hgt
      push_neg at hgt
      have hcm : cnd k s (idx + 1) (mu k s (idx + 1)) := cnd_mu k s (idx + 1)
      obtain ⟨g, hg⟩ : ∃ g, mu k s (idx + 1) = g + 1 :=
        ⟨mu k s (idx + 1) - 1, by omega⟩
      rw [hg] at hcm
      obtain ⟨hc', heq⟩ := (cnd_succ_iff hidx hcm.1 hcm.2.1).mp hcm
      refine hH g (by omega) hc' ⟨by have := hcm.1; omega, ?_⟩
      rw [heq, hx]
    have hmu : mu k s (idx + 1) = l + 1 := le_antisymm hle hge
    rw [hmu]
    simp only [Prod.mk.injEq]
    constructor <;> (push_cast; try omega)
  · -- the candidate does not extend: the guard fires
    have hguard : ((l : Int) = (k.length : Int) ∨
        (0 ≤ (l : Int) ∧ k.get? ((l : Int)).toNat ≠ some x)) := by
      rw [htoNat]
      rcases Nat.lt_or_ge l k.length with hlt | hge
      · right
        refine ⟨by omega, fun hc => hQ ⟨hlt, hc⟩⟩
      · left
        have : l = k.length := by omega
        exact_mod_cast this
    rw [matchWhile, if_pos hguard, htoNat]
    rcases Nat.eq_zero_or_pos l with rfl | hl1
    · -- `l = 0`: `matched_lenght` drops to `-1`, the loop exits, and
      -- `mu (idx+1) = 0`
      rw [ht0]
      obtain ⟨fuel'', rfl⟩ : ∃ fuel'', fuel' = fuel'' + 1 :=
        ⟨fuel' - 1, by omega⟩
      have hpair : ((idx : Int) - ((0 : Nat) : Int)
            + (((1 : Nat) : Nat) : Int),
          ((0 : Nat) : Int) - (((1 : Nat) : Nat) : Int))
          = ((idx : Int) + 1, (-1 : Int)) := by
        simp only [Prod.mk.injEq]
        constructor <;> (push_cast; try omega)
      rw [hpair]
      have hguard2 : ¬ (((-1 : Int)) = (k.length : Int) ∨
          (0 ≤ (-1 : Int) ∧ k.get? ((-1 : Int)).toNat ≠ some x)) := by
        intro hc
        rcases hc with hc | hc
        · omega
        · have := hc.1; omega
      rw [matchWhile, if_neg hguard2]
      have hmu0 : mu k s (idx + 1) = 0 := by
        by_contra hne
        have h1 : 1 ≤ mu k s (idx + 1) := Nat.pos_of_ne_zero hne
        have hcm : cnd k s (idx + 1) (mu k s (idx + 1)) := cnd_mu k s (idx + 1)
        obtain ⟨g, hg⟩ : ∃ g, mu k s (idx + 1) = g + 1 :=
          ⟨mu k s (idx + 1) - 1, by omega⟩
        rw [hg] at hcm
        obtain ⟨hc', heq⟩ := (cnd_succ_iff hidx hcm.1 hcm.2.1).mp hcm
        rcases Nat.eq_zero_or_pos g with rfl | hgpos
        · exact hQ ⟨by have := hcm.1; omega, by rw [heq, hx]⟩
        · exact hH g hgpos hc'
            ⟨by have := hcm.1; omega, by rw [heq, hx]⟩
      rw [hmu0]
      simp only [Prod.mk.injEq]
      constructor <;> (push_cast; try omega)
    · -- `l ≥ 1`: move to the border `fail k l`
      have htl : (shifts_table k).getD l 1 = l - fail k l :=
        htspec l hl1 hlm
      rw [htl]
      have hfl : fail k l < l := fail_lt hl1
      have hstate : ((idx : Int) - (l : Int) + ((l - fail k l : Nat) : Int),
          (l : Int) - ((l - fail k l : Nat) : Int))
          = ((idx : Int) - ((fail k l : Nat) : Int),
             ((fail k l : Nat) : Int)) := by
        simp only [Prod.mk.injEq]
        constructor <;> (push_cast [Nat.cast_sub (le_of_lt hfl)]; try omega)
      rw [hstate]
      have hbf : cnd k s idx (fail k l) :=
        cnd_of_bpred hcnd (bpred_fail k l) (by omega)
      have hH' : ∀ l'', fail k l < l'' → cnd k s idx l'' →
          ¬ (l'' < k.length ∧ k.get? l'' = some x) := by
        intro l'' hgt hc''
        rcases Nat.lt_trichotomy l'' l with hlt' | rfl | hgt'
        · exfalso
          have hnest : bpred k l l'' := cnd_nest hc'' hcnd (by omega)
          have : l'' ≤ fail k l := fail_is_greatest hnest (by omega)
          omega
        · exact hQ
        · exact hH l'' hgt' hc''
      exact IH (fail k l) hfl (by omega) hbf hH' fuel' (by omega)

end KMP


section KMP

variable {α : Type} {β : Type} [DecidableEq α]

/-- The running match reaches the full pattern length exactly when the
whole pattern is a suffix of the scanned prefix. -/
lemma mu_eq_len_iff (k s : List α) (idx1 : Nat) :
    mu k s idx1 = k.length ↔
      (k.length ≤ idx1 ∧ k = (s.take idx1).drop (idx1 - k.length)) := by
  constructor
  · intro h
    have hc := cnd_mu k s idx1
    rw [h] at hc
    refine ⟨hc.2.1, ?_⟩
    have := hc.2.2
    rwa [List.take_length] at this
  · intro ⟨h1, h2⟩
    have hc : cnd k s idx1 k.length :=
      ⟨le_refl _, h1, by rw [List.take_length]; exact h2⟩
    exact le_antisymm (mu_le k s idx1) (mu_is_greatest hc)

/-- The outer search loop, started at position `idx` in its invariant
state, emits exactly the naive matches of the remaining suffix. -/
lemma searchLoop_spec (k s : List α) (hm : 0 < k.length) (emit : Int → β) :
    ∀ (rest : List α) (idx : Nat), s.drop idx = rest →
      searchLoop k (shifts_table k) emit rest
          ((idx : Int) - mu k s idx) (mu k s idx)
        = naiveFrom k s emit rest idx := by
  intro rest
  induction rest with
  | nil => intro idx _; rfl
  | cons x rest' IH =>
    intro idx hdrop
    have hidx : idx < s.length := by
      by_contra hge
      push_neg at hge
      rw [List.drop_eq_nil_of_le hge] at hdrop
      exact absurd hdrop (by simp)
    have hx : s.get? idx = some x := by
      have h0 : (s.drop idx).get? 0 = some x := by rw [hdrop]; rfl
      rwa [List.get?_drop, Nat.add_zero] at h0
    have hdrop' : s.drop (idx + 1) = rest' := by
      have h1 : (s.drop idx).drop 1 = rest' := by rw [hdrop]; rfl
      rwa [List.drop_drop] at h1
    have hmw := matchWhile_spec k s hm x idx hidx hx (mu k s idx)
      (mu_le k s idx) (cnd_mu k s idx)
      (fun l'' hgt hc => absurd (mu_is_greatest hc) (by omega))
      (k.length + 2) (by have := mu_le k s idx; omega)
    rw [searchLoop]
    simp only [hmw]
    have hsub : ((mu k s (idx + 1) : Nat) : Int) - 1 + 1
        = ((mu k s (idx + 1) : Nat) : Int) := sub_add_cancel _ _
    rw [hsub]
    have hcast : (idx : Int) + 1 = (((idx + 1 : Nat)) : Int) := by push_cast; ring
    have htail : searchLoop k (shifts_table k) emit rest'
        ((idx : Int) + 1 - (mu k s (idx + 1) : Nat))
        ((mu k s (idx + 1) : Nat))
        = naiveFrom k s emit rest' (idx + 1) := by
      rw [hcast]
      exact IH (idx + 1) hdrop'
    rw [naiveFrom]
    by_cases hnu : mu k s (idx + 1) = k.length
    · rw [if_pos (by exact_mod_cast congrArg (fun (t : Nat) => (t : Int)) hnu),
        if_pos ((mu_eq_len_iff k s (idx + 1)).mp hnu)]
      rw [htail, hnu]
    · rw [if_neg (fun hc => hnu (by exact_mod_cast hc)),
        if_neg (fun hc => hnu ((mu_eq_len_iff k s (idx + 1)).mpr hc))]
      exact htail

/-- `naiveFrom` over a suffix is a `filterMap` over the remaining
positions. -/
lemma naiveFrom_eq_filterMap (k s : List α) (emit : Int → β) :
    ∀ (rest : List α) (idx : Nat), s.drop idx = rest →
      naiveFrom k s emit rest idx
        = (List.range' idx rest.length).filterMap (fun p =>
            if k.length ≤ p + 1 ∧ k = (s.take (p + 1)).drop (p + 1 - k.length)
            then some (emit ((p : Int) + 1 - k.length)) else none) := by
  intro rest
  induction rest with
  | nil => intro idx _; rfl
  | cons x rest' IH =>
    intro idx hdrop
    have hdrop' : s.drop (idx + 1) = rest' := by
      have h1 : (s.drop idx).drop 1 = rest' := by rw [hdrop]; rfl
      rwa [List.drop_drop] at h1
    rw [show List.range' idx (x :: rest').length
        = idx :: List.range' (idx + 1) rest'.length from rfl]
    rw [List.filterMap_cons, naiveFrom]
    by_cases hc : k.length ≤ idx + 1 ∧
        k = (s.take (idx + 1)).drop (idx + 1 - k.length)
    · rw [if_pos hc, if_pos hc, IH (idx + 1) hdrop']
    · rw [if_neg hc, if_neg hc, IH (idx + 1) hdrop']

/-- A `filterMap` by a guarded `some` is the mapped filtration. -/
lemma filterMap_guard_eq_map_filter (l : List Nat) (q : Nat → Prop)
    [DecidablePred q] (f : Nat → β) :
    l.filterMap (fun i => if q i then some (f i) else none)
      = (l.filter (fun i => decide (q i))).map f := by
  induction l with
  | nil => rfl
  | cons a t IH =>
    rw [List.filterMap_cons, List.filter_cons]
    by_cases hq : q a
    · rw [if_pos hq, if_pos (by simpa using hq), List.map_cons, IH]
    · rw [if_neg hq, if_neg (by simpa using hq), IH]

/-- The ends-based enumeration of matches equals the naive start-based
scan. -/
lemma filterMap_range_eq_naive (k s : List α) (hm : 0 < k.length)
    (emit : Int → β) :
    (List.range s.length).filterMap (fun p =>
        if k.length ≤ p + 1 ∧ k = (s.take (p + 1)).drop (p + 1 - k.length)
        then some (emit ((p : Int) + 1 - k.length)) else none)
      = (naiveMatches s k).map (fun (i : Nat) => emit (i : Int)) := by
  rcases Nat.lt_or_ge s.length k.length with hlt | hge
  · -- pattern longer than the sequence: no matches on either side
    rw [List.filterMap_eq_nil_iff.mpr, naiveMatches,
      show s.length + 1 - k.length = 0 by omega]
    · rfl
    · intro p hp
      rw [List.mem_range] at hp
      rw [if_neg]
      intro hcnd
      have hlen := congrArg List.length hcnd.2
      rw [List.length_drop, List.length_take] at hlen
      omega
  · -- split the positions below `m - 1` (no match can end there) from
    -- the rest, and reindex ends to starts
    have hsplit : List.range s.length
        = List.range' 0 (k.length - 1)
            ++ List.range' (k.length - 1) (s.length + 1 - k.length) := by
      rw [List.range_eq_range']
      rw [show List.range' (k.length - 1) (s.length + 1 - k.length)
          = List.range' (0 + 1 * (k.length - 1)) (s.length + 1 - k.length)
          from by rw [Nat.one_mul, Nat.zero_add]]
      rw [List.range'_append]
      rw [show s.length + 1 - k.length + (k.length - 1) = s.length by omega]
    rw [hsplit, List.filterMap_append]
    have hfirst : (List.range' 0 (k.length - 1)).filterMap (fun p =>
        if k.length ≤ p + 1 ∧ k = (s.take (p + 1)).drop (p + 1 - k.length)
        then some (emit ((p : Int) + 1 - k.length)) else none) = [] := by
      rw [List.filterMap_eq_nil_iff]
      intro p hp
      rw [List.mem_range'_1] at hp
      rw [if_neg]
      intro hcnd
      omega
    rw [hfirst, List.nil_append]
    rw [List.range'_eq_map_range, List.filterMap_map]
    have hpt : ∀ p : Nat,
        ((fun p => if k.length ≤ p + 1 ∧
              k = (s.take (p + 1)).drop (p + 1 - k.length)
            then some (emit ((p : Int) + 1 - k.length)) else none)
          ∘ (fun i => k.length - 1 + i)) p
        = (fun i => if (s.drop i).take k.length = k
            then some (emit (i : Int)) else none) p := by
      intro i
      simp only [Function.comp]
      have harith1 : k.length - 1 + i + 1 = i + k.length := by omega
      have harith2 : i + k.length - k.length = i := by omega
      rw [harith1, harith2]
      have hslice : (s.take (i + k.length)).drop i
          = (s.drop i).take k.length := by
        rw [List.drop_take]
        rw [show i + k.length - i = k.length by omega]
      by_cases hq : (s.drop i).take k.length = k
      · rw [if_pos ⟨by omega, by rw [hslice]; exact hq.symm⟩, if_pos hq]
        have : ((k.length - 1 + i : Nat) : Int) + 1 - k.length = (i : Int) := by
          push_cast [Nat.cast_sub (by omega : 1 ≤ k.length)]
          ring
        rw [this]
      · rw [if_neg, if_neg hq]
        intro hcnd
        exact hq (by rw [← hslice]; exact hcnd.2.symm)
    rw [List.filterMap_congr (fun p _ => hpt p)]
    rw [naiveMatches]
    exact filterMap_guard_eq_map_filter
      (List.range (s.length + 1 - k.length))
      (fun i => (s.drop i).take k.length = k)
      (fun i => emit (i : Int))

end KMP


section KMP

variable {α : Type} {β : Type} [DecidableEq α]

/-- The whole search loop started in its initial state emits exactly the
naive matches. -/
lemma searchLoop_eq_naive (k s : List α) (hm : 0 < k.length)
    (emit : Int → β) :
    searchLoop k (shifts_table k) emit s 0 0
      = (naiveMatches s k).map (fun (i : Nat) => emit (i : Int)) := by
  have h0 := searchLoop_spec k s hm emit s 0 rfl
  rw [mu_zero] at h0
  simp only [Nat.cast_zero, sub_zero] at h0
  rw [h0, naiveFrom_eq_filterMap k s emit s 0 rfl, ← List.range_eq_range',
    filterMap_range_eq_naive k s hm emit]

/-- Shared form of the KMP correctness result (used both by the C5
theorem and by the gazetteer-mask analysis): a successful search yields
exactly the naive matches. -/
lemma search_subsequence_ok_naive (s k : List α) (hk : k ≠ []) :
    search_subsequence s k
        = .ok ((naiveMatches s k).map (fun (i : Nat) => (i : Int))) := by
  have hm : 0 < k.length := List.length_pos.mpr hk
  rw [search_subsequence, if_pos hm,
    searchLoop_eq_naive k s hm (fun sp => sp)]

/-- C5.  For every sequence `S` and non-empty pattern `K` (over any type
with decidable equality), `search_subsequence` succeeds and yields
exactly the start indices `i` with `S[i:i+len(K)] = K` — the naive
quadratic reference scan — with no index omitted or duplicated, in
ascending order, overlapping matches included; with `end=True` it yields
the pairs `(i, i + len(K) - 1)`. -/
theorem c5_kmp_matches (s k : List α) (hk : k ≠ []) :
    search_subsequence s k
        = .ok ((naiveMatches s k).map (fun (i : Nat) => (i : Int))) ∧
      search_subsequence_end s k
        = .ok ((naiveMatches s k).map
            (fun (i : Nat) => ((i : Int), (i : Int) + k.length - 1))) := by
  have hm : 0 < k.length := List.length_pos.mpr hk
  constructor
  · exact search_subsequence_ok_naive s k hk
  · rw [search_subsequence_end, if_pos hm,
      searchLoop_eq_naive k s hm
        (fun sp => (sp, sp + (k.length : Int) - 1))]

/-- Witness for C5 at the spec's own degenerate overlapping input
`S = "aaaa"`, `K = "aa"` (matches 0, 1, 2). -/
theorem c5_kmp_matches_witness :
    ("aa".toList ≠ ([] : List Char)) ∧
      naiveMatches "aaaa".toList "aa".toList = [0, 1, 2] ∧
      search_subsequence "aaaa".toList "aa".toList
          = .ok ((naiveMatches "aaaa".toList "aa".toList).map
              (fun (i : Nat) => (i : Int))) ∧
      search_subsequence_end "aaaa".toList "aa".toList
          = .ok ((naiveMatches "aaaa".toList "aa".toList).map
              (fun (i : Nat) => ((i : Int),
                (i : Int) + ("aa".toList : List Char).length - 1))) :=
  ⟨by decide, by decide,
    c5_kmp_matches "aaaa".toList "aa".toList (by decide)⟩

end KMP


/-! ### C7: the gazetteer mask -/

/-- Pointwise description of the `__format` index walk: on a strictly
sorted pending list whose elements are at least `index`, position `j`
of the emitted mask is `I` exactly when `index + j` is pending. -/
lemma maskGo_spec :
    ∀ (rem index : Nat) (pend : List Nat),
      List.Pairwise (· < ·) pend → (∀ x ∈ pend, index ≤ x) →
      (maskGo pend index rem).length = rem ∧
      ∀ j, j < rem → (maskGo pend index rem).get? j
          = some (if (index + j) ∈ pend then "I" else "O") := by
  intro rem
  induction rem with
  | zero =>
    intro index pend _ _
    refine ⟨?_, fun j hj => by omega⟩
    cases pend <;> rfl
  | succ rem IH =>
    intro index pend hpair hge
    cases pend with
    | nil =>
      obtain ⟨hlen, hpt⟩ := IH (index + 1) [] List.Pairwise.nil
        (fun x hx => absurd hx (List.not_mem_nil x))
      refine ⟨by simp [maskGo, hlen], fun j hj => ?_⟩
      cases j with
      | zero => simp [maskGo]
      | succ j =>
        rw [show maskGo [] index (rem + 1)
            = "O" :: maskGo [] (index + 1) rem from rfl]
        rw [List.get?_cons_succ, hpt j (by omega)]
        simp
    | cons p ps =>
      have hps_lt : ∀ x ∈ ps, p < x := fun x hx =>
        (List.pairwise_cons.mp hpair).1 x hx
      by_cases hip : index = p
      · subst hip
        obtain ⟨hlen, hpt⟩ := IH (index + 1) ps
          (List.pairwise_cons.mp hpair).2
          (fun x hx => by have := hps_lt x hx; omega)
        rw [show maskGo (index :: ps) index (rem + 1)
            = "I" :: maskGo ps (index + 1) rem from by
          rw [maskGo, if_pos rfl]]
        refine ⟨by simp [hlen], fun j hj => ?_⟩
        cases j with
        | zero =>
          rw [List.get?_cons_zero, Nat.add_zero,
            if_pos (List.mem_cons_self _ _)]
        | succ j =>
          rw [List.get?_cons_succ, hpt j (by omega)]
          rw [show index + (j + 1) = index + 1 + j from by omega]
          have hmem : ((index + 1 + j) ∈ index :: ps)
              ↔ ((index + 1 + j) ∈ ps) :=
            ⟨fun h => (List.mem_cons.mp h).resolve_left (by omega),
             fun h => List.mem_cons.mpr (Or.inr h)⟩
          rw [if_congr hmem rfl rfl]
      · have hplt : index < p :=
          lt_of_le_of_ne (hge p (List.mem_cons_self _ _)) hip
        obtain ⟨hlen, hpt⟩ := IH (index + 1) (p :: ps) hpair
          (fun x hx => by
            rcases List.mem_cons.mp hx with rfl | hx
            · omega
            · have := hps_lt x hx; omega)
        rw [show maskGo (p :: ps) index (rem + 1)
            = "O" :: maskGo (p :: ps) (index + 1) rem from by
          rw [maskGo, if_neg hip]]
        refine ⟨by simp [hlen], fun j hj => ?_⟩
        cases j with
        | zero =>
          rw [List.get?_cons_zero, Nat.add_zero, if_neg]
          intro hc
          rcases List.mem_cons.mp hc with rfl | hc
          · omega
          · have := hps_lt index hc; omega
        | succ j =>
          rw [List.get?_cons_succ, hpt j (by omega)]
          rw [show index + (j + 1) = index + 1 + j from by omega]

/-- `__format` succeeds on any in-range element set and produces the
pointwise membership mask of length `length`. -/
lemma format_mask_spec (F : Finset Nat) (n : Nat)
    (hbound : ∀ i ∈ F, i < n) :
    ∃ mask, __format F n = .ok mask ∧ mask.length = n ∧
      ∀ i, i < n → mask.get? i = some (if i ∈ F then "I" else "O") := by
  by_cases hF : F.Nonempty
  · have hmax : F.max' hF ≤ n := le_of_lt (hbound _ (F.max'_mem hF))
    obtain ⟨hlen, hpt⟩ := maskGo_spec n 0 (F.sort (· ≤ ·))
      (F.sort_sorted_lt) (fun x _ => Nat.zero_le x)
    refine ⟨maskGo (F.sort (· ≤ ·)) 0 n, ?_, hlen, fun i hi => ?_⟩
    · rw [__format, dif_pos hF, if_pos hmax]
    · rw [hpt i hi, Nat.zero_add,
        if_congr (Finset.mem_sort (· ≤ ·)) rfl rfl]
  · refine ⟨List.replicate n "O", ?_, List.length_replicate n "O",
      fun i hi => ?_⟩
    · rw [__format, dif_neg hF]
    · rw [List.get?_eq_getElem?,
        List.getElem?_replicate_of_lt (by rwa [] at hi), if_neg]
      intro hc
      exact hF ⟨i, hc⟩

/-- Membership in the running union built from one item's match list. -/
lemma foldl_union_Ico_mem (len : Nat) :
    ∀ (starts : List Nat) (acc : Finset Nat) (i : Nat),
      i ∈ (starts.map (fun (st : Nat) => (st : Int))).foldl
          (fun m st => m ∪ Finset.Ico st.toNat (st.toNat + len)) acc
        ↔ (i ∈ acc ∨ ∃ st ∈ starts, st ≤ i ∧ i < st + len) := by
  intro starts
  induction starts with
  | nil => intro acc i; simp
  | cons st sts IH =>
    intro acc i
    rw [List.map_cons, List.foldl_cons, IH]
    simp only [Int.toNat_natCast, Finset.mem_union, Finset.mem_Ico,
      List.mem_cons]
    constructor
    · intro h
      rcases h with (h | h) | ⟨st', hst', h1, h2⟩
      · exact Or.inl h
      · exact Or.inr ⟨st, Or.inl rfl, h⟩
      · exact Or.inr ⟨st', Or.inr hst', h1, h2⟩
    · intro h
      rcases h with h | ⟨st', hst', h1, h2⟩
      · exact Or.inl (Or.inl h)
      · rcases hst' with rfl | hst'
        · exact Or.inl (Or.inr ⟨h1, h2⟩)
        · exact Or.inr ⟨st', hst', h1, h2⟩

/-- A naive match of a non-empty item fits inside the sequence. -/
lemma naiveMatches_start_bound {wf item : List String} {st : Nat}
    (hst : st ∈ naiveMatches wf item) : st + item.length ≤ wf.length := by
  unfold naiveMatches at hst
  rw [List.mem_filter, List.mem_range] at hst
  omega

/-- The match-collection fold of `matching_gazetteer` succeeds on
gazetteers of non-empty items and collects exactly the indices covered
by some naive match of some item. -/
lemma gaz_fold_spec (wf : List String) :
    ∀ (gaz : List (List String)) (acc : Finset Nat),
      (∀ item ∈ gaz, item ≠ []) →
      ∃ F : Finset Nat,
        (gaz.foldlM (fun acc item => do
            let subsequences ← search_subsequence wf item
            pure (subsequences.foldl
              (fun m (st : Int) =>
                m ∪ Finset.Ico st.toNat (st.toNat + item.length))
              acc)) acc) = .ok F ∧
        ∀ i, i ∈ F ↔ (i ∈ acc ∨
          ∃ item ∈ gaz, ∃ st ∈ naiveMatches wf item,
            st ≤ i ∧ i < st + item.length) := by
  intro gaz
  induction gaz with
  | nil =>
    intro acc _
    exact ⟨acc, rfl, fun i => by simp⟩
  | cons item gaz' IH =>
    intro acc hne
    have hitem : item ≠ [] := hne item (List.mem_cons_self _ _)
    rw [List.foldlM_cons, search_subsequence_ok_naive wf item hitem]
    simp only [Bind.bind, Except.bind, pure, Except.pure]
    set A' := ((naiveMatches wf item).map
        (fun (i : Nat) => (i : Int))).foldl
      (fun m (st : Int) =>
        m ∪ Finset.Ico st.toNat (st.toNat + item.length)) acc with hA'
    obtain ⟨F, hF, hmem⟩ := IH A'
      (fun it hit => hne it (List.mem_cons_of_mem _ hit))
    refine ⟨F, hF, fun i => ?_⟩
    rw [hmem i, hA', foldl_union_Ico_mem]
    constructor
    · intro h
      rcases h with (h | ⟨st, hst, h1, h2⟩) | ⟨it, hit, hrest⟩
      · exact Or.inl h
      · exact Or.inr ⟨item, List.mem_cons_self _ _, st, hst, h1, h2⟩
      · exact Or.inr ⟨it, List.mem_cons_of_mem _ hit, hrest⟩
    · intro h
      rcases h with h | ⟨it, hit, hrest⟩
      · exact Or.inl (Or.inl h)
      · rcases List.mem_cons.mp hit with rfl | hit
        · obtain ⟨st, hst, h1, h2⟩ := hrest
          exact Or.inl (Or.inr ⟨st, hst, h1, h2⟩)
        · exact Or.inr ⟨it, hit, hrest⟩


/-- C7.  The claim quantifies over *every* gazetteer collection, but a
collection containing an empty entry makes `matching_gazetteer` raise
the empty-pattern `AssertionError` from `search_subsequence` instead of
returning a mask. -/
theorem c7_counterexample :
    matching_gazetteer [[]] oneWordSentence
      = .error "The key is empty." := by rfl

/-- C7 (amended).  For every sentence of `n` tokens and every gazetteer
collection whose entries are non-empty, `matching_gazetteer` returns a
mask with exactly one entry per input token; for an empty collection
every entry is `O`; and an entry is `I` exactly when its token index is
covered by some gazetteer match. -/
theorem c7_gazetteer_mask (gaz : List (List String)) (s : Sentence)
    (hne : ∀ item ∈ gaz, item ≠ []) :
    ∃ mask, matching_gazetteer gaz s = .ok mask ∧
      mask.length = s.words.length ∧
      (gaz = [] → mask = List.replicate s.words.length "O") ∧
      ∀ i, i < s.words.length →
        (mask.get? i = some "I" ↔
          ∃ item ∈ gaz,
            ∃ st ∈ naiveMatches (s.words.map Word.word_form) item,
              st ≤ i ∧ i < st + item.length) := by
  obtain ⟨F, hF, hmem⟩ := gaz_fold_spec (s.words.map Word.word_form) gaz ∅ hne
  have hbound : ∀ i ∈ F, i < (s.words.map Word.word_form).length := by
    intro i hi
    rcases (hmem i).mp hi with h | ⟨item, hitem, st, hst, h1, h2⟩
    · exact absurd h (Finset.not_mem_empty i)
    · have := naiveMatches_start_bound hst
      omega
  obtain ⟨mask, hmask, hlen, hpt⟩ :=
    format_mask_spec F (s.words.map Word.word_form).length hbound
  have hn : (s.words.map Word.word_form).length = s.words.length :=
    List.length_map _ _
  refine ⟨mask, ?_, by rw [hlen, hn], ?_, ?_⟩
  · rw [matching_gazetteer, hF]
    simp only [Bind.bind, Except.bind]
    exact hmask
  · intro hgaz
    subst hgaz
    have hFempty : F = ∅ := by
      rw [Finset.eq_empty_iff_forall_not_mem]
      intro i hi
      rcases (hmem i).mp hi with h | ⟨item, hitem, _⟩
      · exact Finset.not_mem_empty i h
      · exact absurd hitem (List.not_mem_nil item)
    subst hFempty
    apply List.ext_get?
    intro j
    rcases Nat.lt_or_ge j s.words.length with hj | hj
    · rw [hpt j (by omega), List.get?_eq_getElem?,
        List.getElem?_replicate_of_lt hj, if_neg (Finset.not_mem_empty j)]
    · rw [List.get?_eq_none.mpr (by omega),
        List.get?_eq_none.mpr (by rw [List.length_replicate]; omega)]
  · intro i hi
    rw [hpt i (by omega)]
    by_cases hiF : i ∈ F
    · rw [if_pos hiF]
      constructor
      · intro _
        rcases (hmem i).mp hiF with h | h
        · exact absurd h (Finset.not_mem_empty i)
        · exact h
      · intro _; rfl
    · rw [if_neg hiF]
      constructor
      · intro hc
        exact absurd (Option.some.inj hc) (by decide)
      · intro hcov
        exact absurd ((hmem i).mpr (Or.inr hcov)) hiF

/-- Witness for C7 (amended) on a one-word sentence with a matching
one-word gazetteer entry. -/
theorem c7_gazetteer_mask_witness :
    (∀ item ∈ [["on"]], item ≠ ([] : List String)) ∧
      ∃ mask, matching_gazetteer [["on"]] oneWordSentence = .ok mask ∧
        mask.length = oneWordSentence.words.length ∧
        ([["on"]] = ([] : List (List String)) →
          mask = List.replicate oneWordSentence.words.length "O") ∧
        ∀ i, i < oneWordSentence.words.length →
          (mask.get? i = some "I" ↔
            ∃ item ∈ [["on"]],
              ∃ st ∈ naiveMatches
                  (oneWordSentence.words.map Word.word_form) item,
                st ≤ i ∧ i < st + item.length) :=
  ⟨by decide, c7_gazetteer_mask [["on"]] oneWordSentence (by decide)⟩


/-! ### C9: the overwrite renderer preserves the uncovered text -/

lemma join_foldl (l : List String) :
    ∀ a : String, l.foldl (· ++ ·) a = a ++ String.join l := by
  induction l with
  | nil => intro a; exact (String.append_empty a).symm
  | cons s t IH =>
    intro a
    show t.foldl (· ++ ·) (a ++ s) = a ++ String.join (s :: t)
    rw [IH (a ++ s)]
    show a ++ s ++ String.join t = a ++ t.foldl (· ++ ·) ("" ++ s)
    rw [IH ("" ++ s), String.append_assoc]
    rfl

lemma join_cons (s : String) (l : List String) :
    String.join (s :: l) = s ++ String.join l := by
  show l.foldl (· ++ ·) ("" ++ s) = s ++ String.join l
  rw [join_foldl l ("" ++ s)]
  rfl

lemma join_append (l1 l2 : List String) :
    String.join (l1 ++ l2) = String.join l1 ++ String.join l2 := by
  induction l1 with
  | nil => rw [List.nil_append]; rfl
  | cons s t IH =>
    rw [List.cons_append, join_cons, join_cons, IH, String.append_assoc]

lemma join_replicate_empty (n : Nat) :
    String.join (List.replicate n "") = "" := by
  induction n with
  | zero => rfl
  | succ n IH => rw [List.replicate_succ, join_cons, IH]; rfl

lemma foldl_set_length (l : List Nat) :
    ∀ buf : List String,
      (l.foldl (fun b i => b.set i "") buf).length = buf.length := by
  induction l with
  | nil => intro buf; rfl
  | cons i t IH =>
    intro buf
    rw [List.foldl_cons, IH, List.length_set]

/-- Dropping past a known prefix and one more element. -/
lemma drop_prefix_cons (A : List String) (x : String) (B : List String)
    (d : Nat) :
    (A ++ x :: B).drop (A.length + 1 + d) = B.drop d := by
  rw [show A.length + 1 + d = A.length + (1 + d) from by omega,
    List.drop_append, show (1 + d : Nat) = d + 1 from by omega,
    List.drop_succ_cons]

/-- Blanking a contiguous index range replaces that segment range with
empty strings. -/
lemma blank_fold :
    ∀ (n l : Nat) (buf : List String), l + n ≤ buf.length →
      (List.range' l n).foldl (fun b i => b.set i "") buf
        = buf.take l ++ List.replicate n "" ++ buf.drop (l + n) := by
  intro n
  induction n with
  | zero =>
    intro l buf _
    rw [show List.range' l 0 = [] from rfl, List.foldl_nil,
      List.replicate_zero, Nat.add_zero, List.append_nil,
      List.take_append_drop]
  | succ n IH =>
    intro l buf hlen
    rw [show List.range' l (n + 1) = l :: List.range' (l + 1) n from rfl,
      List.foldl_cons]
    have hl : l < buf.length := by omega
    have hset : buf.set l "" = buf.take l ++ "" :: buf.drop (l + 1) := by
      rw [List.set_eq_take_append_cons_drop, if_pos hl]
    rw [IH (l + 1) (buf.set l "") (by rw [List.length_set]; omega), hset]
    have htk : l + 1 = (buf.take l).length + 1 := by
      rw [List.length_take, Nat.min_eq_left (le_of_lt hl)]
    have htake : (buf.take l ++ "" :: buf.drop (l + 1)).take (l + 1)
        = buf.take l ++ [""] := by
      rw [htk, List.take_append_eq_append_take,
        List.take_of_length_le (by omega),
        show (buf.take l).length + 1 - (buf.take l).length = 1 from by omega]
      rfl
    have hlA : (buf.take l).length = l := by
      rw [List.length_take]; omega
    have hdrop : (buf.take l ++ "" :: buf.drop (l + 1)).drop (l + 1 + n)
        = buf.drop (l + 1 + n) := by
      have h1 := drop_prefix_cons (buf.take l) "" (buf.drop (l + 1)) n
      rw [hlA] at h1
      rw [h1, List.drop_drop]
    rw [htake, hdrop, List.replicate_succ,
      show l + (n + 1) = l + 1 + n from by omega]
    simp [List.append_assoc]

/-- The explicit segment form of one span's overwrite. -/
lemma write_span_eq (buf : List String) (off s e : Nat) (m : String)
    (hse : s < e) (hlen : off + e ≤ buf.length) :
    write_span buf off (s, e, m)
      = buf.take (off + s) ++ [m] ++ List.replicate (e - s - 1) ""
          ++ buf.drop (off + e) := by
  rw [write_span]
  have hs : s + off < buf.length := by omega
  have hset : buf.set (s + off) m
      = buf.take (off + s) ++ m :: buf.drop (off + s + 1) := by
    rw [List.set_eq_take_append_cons_drop, if_pos hs,
      show s + off = off + s from by omega]
  rw [hset]
  rw [blank_fold (off + e - (off + s + 1)) (off + s + 1)
    (buf.take (off + s) ++ m :: buf.drop (off + s + 1))
    (by
      rw [List.length_append, List.length_take, List.length_cons,
        List.length_drop]
      omega)]
  have htk2 : off + s + 1 = (buf.take (off + s)).length + 1 := by
    rw [List.length_take, Nat.min_eq_left (by omega)]
  have htake : (buf.take (off + s) ++ m :: buf.drop (off + s + 1)).take
      (off + s + 1) = buf.take (off + s) ++ [m] := by
    rw [htk2, List.take_append_eq_append_take,
      List.take_of_length_le (by omega),
      show (buf.take (off + s)).length + 1 - (buf.take (off + s)).length = 1
        from by omega]
    rfl
  have hlA2 : (buf.take (off + s)).length = off + s := by
    rw [List.length_take]; omega
  have hdrop : (buf.take (off + s) ++ m :: buf.drop (off + s + 1)).drop
      (off + s + 1 + (off + e - (off + s + 1))) = buf.drop (off + e) := by
    rw [show off + s + 1 + (off + e - (off + s + 1)) = off + e from by omega]
    have h1 := drop_prefix_cons (buf.take (off + s)) m
      (buf.drop (off + s + 1)) (e - s - 1)
    rw [hlA2] at h1
    rw [show off + e = off + s + 1 + (e - s - 1) from by omega, h1,
      List.drop_drop]
  rw [htake, hdrop]
  rw [show off + e - (off + s + 1) = e - s - 1 from by omega,
    List.append_assoc]

lemma write_span_length (buf : List String) (off : Nat)
    (a : Nat × Nat × String) :
    (write_span buf off a).length = buf.length := by
  rw [write_span, foldl_set_length, List.length_set]

/-- Splitting the expected rendering at an intermediate position that
lies before the first remaining span. -/
lemma spliced_cut (buf : List String) (off : Nat) :
    ∀ (anns : List (Nat × Nat × String)) (pos q lb : Nat),
      pos ≤ q → q ≤ off + lb → spansOK off lb buf.length anns = true →
      spliced buf off pos anns
        = String.join ((buf.drop pos).take (q - pos))
            ++ spliced buf off q anns := by
  intro anns
  cases anns with
  | nil =>
    intro pos q lb hpq _ _
    show String.join (buf.drop pos)
      = String.join ((buf.drop pos).take (q - pos)) ++ String.join (buf.drop q)
    rw [show buf.drop q = (buf.drop pos).drop (q - pos) from by
        rw [List.drop_drop, show pos + (q - pos) = q from by omega],
      ← join_append, List.take_append_drop]
  | cons a rest =>
    obtain ⟨s, e, m⟩ := a
    intro pos q lb hpq hql hok
    simp only [spansOK, Bool.and_eq_true, decide_eq_true_eq] at hok
    obtain ⟨⟨⟨hlb, hse⟩, hrange⟩, hrest⟩ := hok
    show String.join ((buf.drop pos).take (off + s - pos)) ++ m ++ _
      = String.join ((buf.drop pos).take (q - pos))
          ++ (String.join ((buf.drop q).take (off + s - q)) ++ m ++ _)
    have hqs : q ≤ off + s := by omega
    have hsplit : (buf.drop pos).take (off + s - pos)
        = (buf.drop pos).take (q - pos) ++ (buf.drop q).take (off + s - q) := by
      rw [show off + s - pos = (q - pos) + (off + s - q) from by omega,
        List.take_add]
      rw [List.drop_drop, show pos + (q - pos) = q from by omega]
    rw [hsplit, join_append]
    simp [String.append_assoc]

/-- The expected rendering only reads the buffer from `pos` on. -/
lemma spliced_congr (off : Nat) :
    ∀ (anns : List (Nat × Nat × String)) (buf1 buf2 : List String)
      (pos lb : Nat),
      buf1.drop pos = buf2.drop pos → pos ≤ off + lb →
      spansOK off lb buf1.length anns = true →
      spliced buf1 off pos anns = spliced buf2 off pos anns := by
  intro anns
  induction anns with
  | nil =>
    intro buf1 buf2 pos lb hdrop _ _
    show String.join (buf1.drop pos) = String.join (buf2.drop pos)
    rw [hdrop]
  | cons a rest IH =>
    obtain ⟨s, e, m⟩ := a
    intro buf1 buf2 pos lb hdrop hpos hok
    simp only [spansOK, Bool.and_eq_true, decide_eq_true_eq] at hok
    obtain ⟨⟨⟨hlb, hse⟩, hrange⟩, hrest⟩ := hok
    show String.join ((buf1.drop pos).take (off + s - pos)) ++ m ++ _
      = String.join ((buf2.drop pos).take (off + s - pos)) ++ m ++ _
    have hdrop2 : buf1.drop (off + e) = buf2.drop (off + e) := by
      rw [show off + e = pos + (off + e - pos) from by omega,
        ← List.drop_drop, ← List.drop_drop, hdrop]
    rw [hdrop, IH buf1 buf2 (off + e) e hdrop2 (le_refl _) hrest]

/-- The heart of C9: rendering the remaining spans into the buffer and
joining from any position before them equals the expected spliced
text. -/
lemma render_join (off : Nat) :
    ∀ (anns : List (Nat × Nat × String)) (buf : List String) (pos lb : Nat),
      spansOK off lb buf.length anns = true → pos ≤ off + lb →
      String.join ((overwrite_render buf off anns).drop pos)
        = spliced buf off pos anns := by
  intro anns
  induction anns with
  | nil => intro buf pos lb _ _; rfl
  | cons a rest IH =>
    obtain ⟨s, e, m⟩ := a
    intro buf pos lb hok hpos
    simp only [spansOK, Bool.and_eq_true, decide_eq_true_eq] at hok
    obtain ⟨⟨⟨hlb, hse⟩, hrange⟩, hrest⟩ := hok
    rw [show overwrite_render buf off ((s, e, m) :: rest)
        = overwrite_render (write_span buf off (s, e, m)) off rest from rfl]
    set buf1 := write_span buf off (s, e, m) with hbuf1
    have hlen1 : buf1.length = buf.length := write_span_length buf off _
    have hexp : buf1 = buf.take (off + s) ++ [m]
        ++ List.replicate (e - s - 1) "" ++ buf.drop (off + e) :=
      write_span_eq buf off s e m hse hrange
    have hok1 : spansOK off e buf1.length rest = true := by
      rw [hlen1]; exact hrest
    rw [IH buf1 pos e hok1 (by omega)]
    -- cut the spliced form of `buf1` at the end of the current span
    rw [spliced_cut buf1 off rest pos (off + e) e (by omega) (le_refl _)
      hok1]
    -- beyond `off + e` the two buffers agree
    have hXlen : ((buf.take (off + s) ++ [m])
        ++ List.replicate (e - s - 1) "").length = off + e := by
      rw [List.length_append, List.length_append, List.length_take,
        List.length_replicate, Nat.min_eq_left (by omega)]
      simp only [List.length_cons, List.length_nil]
      omega
    have hdropeq : buf1.drop (off + e) = buf.drop (off + e) := by
      have hdl := List.drop_left
        ((buf.take (off + s) ++ [m]) ++ List.replicate (e - s - 1) "")
        (buf.drop (off + e))
      rw [hXlen] at hdl
      rw [hexp]
      exact hdl
    have hcongr : spliced buf1 off (off + e) rest
        = spliced buf off (off + e) rest := by
      refine spliced_congr off rest buf1 buf (off + e) e hdropeq
        (le_refl _) hok1
    rw [hcongr]
    -- the segment `[pos, off+e)` of `buf1` is the untouched prefix, the
    -- markup, and the blanks
    have hprefix : (buf1.drop pos).take (off + e - pos)
        = (buf.take (off + s)).drop pos ++ [m]
            ++ List.replicate (e - s - 1) "" := by
      rw [hexp]
      have hlentk : (buf.take (off + s)).length = off + s := by
        rw [List.length_take]; omega
      rw [List.append_assoc, List.append_assoc]
      rw [List.drop_append_of_le_length (by omega)]
      rw [← List.append_assoc, ← List.append_assoc]
      rw [List.take_append_of_le_length (by
        rw [List.length_append, List.length_append, List.length_drop,
          hlentk, List.length_replicate]
        simp only [List.length_cons, List.length_nil]
        omega)]
      rw [List.take_of_length_le (by
        rw [List.length_append, List.length_append, List.length_drop,
          hlentk, List.length_replicate]
        simp only [List.length_cons, List.length_nil]
        omega)]
    rw [ hprefix]
    rw [join_append, join_append, join_replicate_empty,
      String.append_empty]
    show String.join ((buf.take (off + s)).drop pos) ++ String.join [m] ++ _
      = String.join ((buf.drop pos).take (off + s - pos)) ++ m ++ _
    rw [List.drop_take, show String.join [m] = m from by
      rw [join_cons]; exact String.append_empty m]

/-- C9.  For a buffer of one single-character segment per character of
the document text and any ascending list of non-overlapping in-range
predicted spans, the overwrite renderer yields segments whose in-order
join is the original text with each span's covered character range
replaced by its markup string (the `spliced` reference): characters
outside every span are never duplicated or dropped. -/
theorem c9_overwrite_renderer (txt : List Char) (off : Nat)
    (anns : List (Nat × Nat × String))
    (h : spansOK off 0 txt.length anns = true) :
    String.join (overwrite_render (txt.map String.singleton) off anns)
      = spliced (txt.map String.singleton) off 0 anns := by
  have hlen : (txt.map String.singleton).length = txt.length :=
    List.length_map txt String.singleton
  have := render_join off anns (txt.map String.singleton) 0 0
    (by rw [hlen]; exact h) (Nat.zero_le _)
  rwa [List.drop_zero] at this

/-- Witness for C9 on the concrete scenario text with one span. -/
theorem c9_overwrite_renderer_witness :
    (spansOK 0 0 ("He left on Monday".toList).length
        [(3, 7, "<EVENT>left</EVENT>")] = true) ∧
      String.join (overwrite_render
          (("He left on Monday".toList).map String.singleton) 0
          [(3, 7, "<EVENT>left</EVENT>")])
        = spliced (("He left on Monday".toList).map String.singleton) 0 0
            [(3, 7, "<EVENT>left</EVENT>")] :=
  ⟨by decide, c9_overwrite_renderer "He left on Monday".toList 0
    [(3, 7, "<EVENT>left</EVENT>")] (by decide)⟩


/-! ### C8: encode/decode round trip on aligned documents -/

/-- An annotation lying entirely before a (non-empty) token fires no stop
condition. -/
lemma miss_before {ts te : Nat} {a : Ann} (h1 : a.2.1 < a.2.2)
    (h2 : a.2.2 ≤ ts) (h3 : ts < te) : ¬ fires ts te a := by
  simp only [fires]
  omega

/-- An annotation lying entirely after a (non-empty) token fires no stop
condition. -/
lemma miss_after {ts te : Nat} {a : Ann} (h1 : a.2.1 < a.2.2)
    (h2 : te ≤ a.2.1) (h3 : ts < te) : ¬ fires ts te a := by
  simp only [fires]
  omega

/-- The encoder loop stops at the first firing annotation with exactly
its symbol and tag, whatever state it was in. -/
lemma faLoop_fires (ts te : Nat) (σ : Char) :
    ∀ (pre : List Ann) (a : Ann) (post : List Ann),
      (∀ x ∈ pre, ¬ fires ts te x) → fireSym ts te a = some σ →
      ∀ sl tf, faLoop ts te sl tf (pre ++ a :: post) = (some σ, a.1) := by
  intro pre
  induction pre with
  | nil =>
    intro a post _ hfire sl tf
    obtain ⟨tag, so, eo⟩ := a
    simp only [fireSym] at hfire
    rw [List.nil_append]
    simp only [faLoop]
    split_ifs at hfire ⊢ <;>
      first
        | rw [Option.some.inj hfire]
        | exact absurd hfire (by simp)
  | cons x pre' IH =>
    intro a post hpre hfire sl tf
    have hx : ¬ fires ts te x := hpre x (List.mem_cons_self _ _)
    obtain ⟨tagx, sox, eox⟩ := x
    simp only [fires, not_or] at hx
    obtain ⟨hx1, hx2, hx3, hx4⟩ := hx
    rw [List.cons_append]
    simp only [faLoop]
    rw [if_neg hx1, if_neg hx2, if_neg hx3, if_neg hx4]
    exact IH a post (fun y hy => hpre y (List.mem_cons_of_mem _ hy))
      hfire (some 'O') tagx

/-- The formatted label of a token at which annotation `a` fires, after
a prefix of missing annotations: the alphabet-restricted symbol, a dash,
and `a`'s tag; the restricted symbol is never `'O'` when the fired one
is not. -/
lemma format_annotation_fires (ts te : Nat) (pre : List Ann) (a : Ann)
    (post : List Ann) (fmt : String) (σ : Char)
    (hpre : ∀ x ∈ pre, ¬ fires ts te x) (hfire : fireSym ts te a = some σ)
    (hσ : σ ≠ 'O') :
    format_annotation ts te (pre ++ a :: post) fmt
        = String.singleton (resolveLabel fmt (some σ)) ++ "-" ++ a.1
      ∧ resolveLabel fmt (some σ) ≠ 'O' := by
  have hloop := faLoop_fires ts te σ pre a post hpre hfire none ""
  have hres : resolveLabel fmt (some σ) ≠ 'O' := by
    simp only [resolveLabel]
    by_cases h : σ ∈ fmt.toList
    · rw [if_pos h]; exact hσ
    · rw [if_neg h]; decide
  refine ⟨?_, hres⟩
  simp only [ format_annotation, hloop]
  rw [if_neg hres]

/-- A span annotation fires (with a non-`O` symbol) on each of the
tokens it covers. -/
lemma fireSym_span (tag : String) (p P q l : Nat) (hpq : p ≤ q)
    (hlP : q + l ≤ P) :
    ∃ σ, fireSym q (q + l) (tag, p, P) = some σ ∧ σ ≠ 'O' := by
  simp only [fireSym]
  split_ifs with h1 h2 h3 h4
  · exact ⟨'W', rfl, by decide⟩
  · exact ⟨'E', rfl, by decide⟩
  · exact ⟨'B', rfl, by decide⟩
  · exact ⟨'I', rfl, by decide⟩
  · exfalso
    simp only [not_and] at h1 h4
    omega

/-- Parsing the tag back out of a formatted label. -/
lemma tagOf_label (c : Char) (tf : String) :
    tagOf (String.singleton c ++ "-" ++ tf) = tf := by
  rw [tagOf]
  rw [show (String.singleton c ++ "-" ++ tf).data
      = c :: '-' :: tf.data from by
    rw [String.data_append, String.data_append]
    rfl]
  rfl

/-- Every annotation generated from position `q` on starts at or after
`q` and is non-empty. -/
lemma annsOf_bounds :
    ∀ (bs : List Block) (q : Nat), blocksOK bs = true →
      ∀ a ∈ annsOf q bs, q ≤ a.2.1 ∧ a.2.1 < a.2.2 := by
  intro bs
  induction bs with
  | nil => intro q _ a ha; exact absurd ha (List.not_mem_nil a)
  | cons b bs' IH =>
    intro q hOK a ha
    cases b with
    | gap g l =>
      simp only [blocksOK, Bool.and_eq_true, decide_eq_true_eq] at hOK
      rw [show annsOf q (Block.gap g l :: bs') = annsOf (q + g + l) bs'
        from rfl] at ha
      have := IH (q + g + l) hOK.2 a ha
      omega
    | span tag g l1 ls =>
      simp only [blocksOK, Bool.and_eq_true, decide_eq_true_eq,
        List.all_eq_true] at hOK
      obtain ⟨⟨⟨hl1, _⟩, _⟩, hOK'⟩ := hOK
      rw [show annsOf q (Block.span tag g l1 ls :: bs')
          = (tag, q + g, q + g + l1 + lensSum ls)
            :: annsOf (q + g + l1 + lensSum ls) bs' from rfl] at ha
      rcases List.mem_cons.mp ha with rfl | ha
      · refine ⟨?_, ?_⟩
        · show q ≤ q + g
          omega
        · show q + g < q + g + l1 + lensSum ls
          omega
      · have := IH (q + g + l1 + lensSum ls) hOK' a ha
        omega

/-- A block list with a span generates at least one annotation. -/
lemma annsOf_ne_nil :
    ∀ (bs : List Block) (q : Nat), hasSpan bs = true → annsOf q bs ≠ [] := by
  intro bs
  induction bs with
  | nil => intro q h; exact absurd h (by simp [hasSpan])
  | cons b bs' IH =>
    intro q h
    cases b with
    | gap g l => exact IH (q + g + l) h
    | span tag g l1 ls => simp [annsOf]


/-- Decoding the remaining tokens of one span: each further covered
token keeps the span's tag, so the decoder extends the open span until
it covers the whole annotation. -/
lemma c8_span_cont (fmt : String) (preA postA : List Ann) (tag : String)
    (p P : Nat) (hpre : ∀ a ∈ preA, a.2.1 < a.2.2 ∧ a.2.2 ≤ p) :
    ∀ (ls : List (Nat × Nat)) (q : Nat) (moreToks : List (Nat × Nat)),
      (∀ gl ∈ ls, 1 ≤ gl.2) → p < q → q + lensSum ls = P →
      decode_labels (some (tag, p, q))
          (encodeTokens (preA ++ (tag, p, P) :: postA) fmt
            (tokensOfLens q ls ++ moreToks))
        = decode_labels (some (tag, p, P))
            (encodeTokens (preA ++ (tag, p, P) :: postA) fmt moreToks) := by
  intro ls
  induction ls with
  | nil =>
    intro q moreToks _ _ hsum
    obtain rfl : q = P := by
      rw [show lensSum [] = 0 from rfl] at hsum; omega
    rfl
  | cons gl ls' IH =>
    obtain ⟨g, l⟩ := gl
    intro q moreToks hall hpq hsum
    have hl : 1 ≤ l := by
      have := hall (g, l) (List.mem_cons_self _ _)
      simpa using this
    rw [show lensSum ((g, l) :: ls') = g + l + lensSum ls' from rfl] at hsum
    have hql : q + g + l ≤ P := by omega
    obtain ⟨σ, hσeq, hσO⟩ := fireSym_span tag p P (q + g) l (by omega) hql
    have hmiss : ∀ x ∈ preA, ¬ fires (q + g) (q + g + l) x := by
      intro x hx
      obtain ⟨hx1, hx2⟩ := hpre x hx
      exact miss_before hx1 (by omega) (by omega)
    obtain ⟨hlab, hlabO⟩ := format_annotation_fires (q + g) (q + g + l) preA
      (tag, p, P) postA fmt σ hmiss hσeq hσO
    rw [show tokensOfLens q ((g, l) :: ls')
        = (q + g, q + g + l) :: tokensOfLens (q + g + l) ls' from rfl,
      List.cons_append]
    rw [show encodeTokens (preA ++ (tag, p, P) :: postA) fmt
          (((q + g, q + g + l)) :: (tokensOfLens (q + g + l) ls' ++ moreToks))
        = ((q + g, q + g + l), format_annotation (q + g) (q + g + l)
              (preA ++ (tag, p, P) :: postA) fmt)
            :: encodeTokens (preA ++ (tag, p, P) :: postA) fmt
              (tokensOfLens (q + g + l) ls' ++ moreToks) from rfl]
    rw [hlab]
    simp only [decode_labels]
    rw [if_neg (symbol_dash_ne_O _ _), tagOf_label, if_pos rfl]
    exact IH (q + g + l) moreToks
      (fun x hx => hall x (List.mem_cons_of_mem _ hx)) (by omega) (by omega)

/-- The round-trip induction: processing the tokens generated from
position `p` on, with processed annotations `preA` behind and decoder
state `st` (whose tag, if any, differs from the next span's tag), emits
the pending state followed by exactly the annotations from `p` on. -/
lemma c8_main (fmt : String) (hO : 'O' ∈ fmt.toList) :
    ∀ (bs : List Block) (p : Nat) (preA : List Ann)
      (st : Option (String × Nat × Nat)),
      blocksOK bs = true →
      (∀ a ∈ preA, a.2.1 < a.2.2 ∧ a.2.2 ≤ p) →
      preA ++ annsOf p bs ≠ [] →
      (∀ tg s e, st = some (tg, s, e) → nextTagOK bs tg) →
      decode_labels st
          (encodeTokens (preA ++ annsOf p bs) fmt (tokensOf p bs))
        = st.toList ++ annsOf p bs := by
  intro bs
  induction bs with
  | nil =>
    intro p preA st _ _ _ _
    rcases st with _ | ⟨tg, s0, e0⟩ <;> rfl
  | cons b bs' IH =>
    intro p preA st hOK hpre hne hst
    cases b with
    | gap g l =>
      simp only [blocksOK, Bool.and_eq_true, decide_eq_true_eq] at hOK
      obtain ⟨hl, hOK'⟩ := hOK
      have hanns : annsOf p (Block.gap g l :: bs')
          = annsOf (p + g + l) bs' := rfl
      have hmiss : ∀ a ∈ preA ++ annsOf (p + g + l) bs',
          ¬ fires (p + g) (p + g + l) a := by
        intro a ha
        rcases List.mem_append.mp ha with ha | ha
        · obtain ⟨h1, h2⟩ := hpre a ha
          exact miss_before h1 (by omega) (by omega)
        · obtain ⟨h1, h2⟩ := annsOf_bounds bs' (p + g + l) hOK' a ha
          exact miss_after h2 h1 (by omega)
      have hlab : format_annotation (p + g) (p + g + l)
          (preA ++ annsOf (p + g + l) bs') fmt = "O" :=
        format_annotation_miss (p + g) (p + g + l) _ fmt (hanns ▸ hne)
          hmiss hO
      rw [hanns, show tokensOf p (Block.gap g l :: bs')
          = (p + g, p + g + l) :: tokensOf (p + g + l) bs' from rfl]
      rw [show encodeTokens (preA ++ annsOf (p + g + l) bs') fmt
            ((p + g, p + g + l) :: tokensOf (p + g + l) bs')
          = ((p + g, p + g + l), format_annotation (p + g) (p + g + l)
                (preA ++ annsOf (p + g + l) bs') fmt)
              :: encodeTokens (preA ++ annsOf (p + g + l) bs') fmt
                (tokensOf (p + g + l) bs') from rfl]
      rw [hlab]
      have htail := IH (p + g + l) preA none hOK'
        (fun a ha => by obtain ⟨h1, h2⟩ := hpre a ha; exact ⟨h1, by omega⟩)
        hne (fun tg s e h => nomatch h)
      rcases st with _ | ⟨tg, s0, e0⟩
      · simp only [decode_labels]
        rw [if_pos trivial, htail]
        try rfl
      · simp only [decode_labels]
        rw [if_pos trivial, htail]
        try rfl
    | span tag g l1 ls =>
      simp only [blocksOK, Bool.and_eq_true, decide_eq_true_eq,
        List.all_eq_true] at hOK
      obtain ⟨⟨⟨hl1, hall⟩, hnext⟩, hOK'⟩ := hOK
      have hall' : ∀ x ∈ ls, 1 ≤ x.2 := fun x hx => by
        have := hall x hx; simpa using this
      set P := p + g + l1 + lensSum ls with hP
      have hPgt : p + g < P := by
        rw [hP]; omega
      have hanns : annsOf p (Block.span tag g l1 ls :: bs')
          = (tag, p + g, P) :: annsOf P bs' := rfl
      have htoks : tokensOf p (Block.span tag g l1 ls :: bs')
          = (p + g, p + g + l1) :: (tokensOfLens (p + g + l1) ls
              ++ tokensOf P bs') := rfl
      obtain ⟨σ, hσeq, hσO⟩ := fireSym_span tag (p + g) P (p + g) l1
        (le_refl _) (by rw [hP]; omega)
      have hmiss : ∀ x ∈ preA, ¬ fires (p + g) (p + g + l1) x := by
        intro x hx
        obtain ⟨h1, h2⟩ := hpre x hx
        exact miss_before h1 (by omega) (by omega)
      obtain ⟨hlab, hlabO⟩ := format_annotation_fires (p + g) (p + g + l1)
        preA (tag, p + g, P) (annsOf P bs') fmt σ hmiss hσeq hσO
      have hcont := c8_span_cont fmt preA (annsOf P bs') tag (p + g) P
        (fun a ha => ⟨(hpre a ha).1, by have := (hpre a ha).2; omega⟩) ls
        (p + g + l1) (tokensOf P bs') hall' (by omega) (by rw [hP])
      have hpre' : ∀ a ∈ preA ++ [(tag, p + g, P)],
          a.2.1 < a.2.2 ∧ a.2.2 ≤ P := by
        intro a ha
        rcases List.mem_append.mp ha with ha | ha
        · obtain ⟨h1, h2⟩ := hpre a ha
          exact ⟨h1, by omega⟩
        · rcases List.mem_singleton.mp ha with rfl
          exact ⟨hPgt, le_refl _⟩
      have hne' : (preA ++ [(tag, p + g, P)]) ++ annsOf P bs' ≠ [] := by
        simp
      have hst' : ∀ tg s e,
          (some (tag, p + g, P) : Option (String × Nat × Nat))
          = some (tg, s, e) → nextTagOK bs' tg := by
        intro tg s e h
        have htg : tag = tg := congrArg Prod.fst (Option.some.inj h)
        subst htg
        cases bs' with
        | nil => simp [nextTagOK]
        | cons b2 bs2 =>
          cases b2 with
          | gap _ _ => simp [nextTagOK]
          | span tag2 g2 l2 ls2 =>
            simp only [nextTagOK]
            exact Ne.symm (of_decide_eq_true hnext : tag ≠ tag2)
      have htail := IH P (preA ++ [(tag, p + g, P)]) (some (tag, p + g, P))
        hOK' hpre' hne' hst'
      rw [← List.append_cons preA (tag, p + g, P) (annsOf P bs')] at htail
      rw [hanns, htoks]
      rw [show encodeTokens (preA ++ (tag, p + g, P) :: annsOf P bs') fmt
            ((p + g, p + g + l1) :: (tokensOfLens (p + g + l1) ls
                ++ tokensOf P bs'))
          = ((p + g, p + g + l1), format_annotation (p + g) (p + g + l1)
                (preA ++ (tag, p + g, P) :: annsOf P bs') fmt)
              :: encodeTokens (preA ++ (tag, p + g, P) :: annsOf P bs') fmt
                (tokensOfLens (p + g + l1) ls ++ tokensOf P bs') from rfl]
      rw [hlab]
      rcases st with _ | ⟨tg, s0, e0⟩
      · simp only [decode_labels]
        rw [if_neg (symbol_dash_ne_O _ _), tagOf_label, hcont, htail]
        rfl
      · have htg : tag ≠ tg := hst tg s0 e0 rfl
        simp only [decode_labels]
        rw [if_neg (symbol_dash_ne_O _ _), tagOf_label, if_neg htg,
          hcont, htail]
        rfl

/-- C8.  As stated the claim fails on three aligned, non-overlapping
documents: (a) two adjacent same-tag spans are merged into one by the
decoder; (b) with an alphabet lacking `'O'` an outside token becomes an
`I-<tag>` label and corrupts the spans; (c) with no gold spans at all,
every token is labelled `"I-"` and decodes to a spurious empty-tag
span. -/
theorem c8_counterexample :
    decode_labels none (encodeTokens [("T", 0, 2), ("T", 2, 4)] "WBEIO"
        [(0, 2), (2, 4)]) ≠ [("T", 0, 2), ("T", 2, 4)] ∧
      decode_labels none (encodeTokens [("T", 0, 2), ("S", 4, 6)] "BI"
        [(0, 2), (2, 4), (4, 6)]) ≠ [("T", 0, 2), ("S", 4, 6)] ∧
      decode_labels none (encodeTokens ([] : List Ann) "BIO" [(0, 2)])
        ≠ ([] : List Ann) := by
  refine ⟨?_, ?_, ?_⟩ <;> decide

/-- C8 (amended).  For any aligned document — generated by a block
list: any token stream with arbitrary untokenized characters before and
between tokens, and non-overlapping gold spans whose boundaries
coincide with the boundaries of the tokens they cover — in which no two
same-tag spans lie on consecutive tokens of the stream, with a label
alphabet containing `'O'` and at least one gold span (or no content at
all), encoding every token with `format_annotation` and then decoding
the labels reproduces the original spans' `(tag, start, end)` list
exactly. -/
theorem c8_round_trip (bs : List Block) (fmt : String)
    (hOK : blocksOK bs = true) (hO : 'O' ∈ fmt.toList)
    (hA : bs = [] ∨ hasSpan bs = true) :
    decode_labels none
        (encodeTokens (annsOf 0 bs) fmt (tokensOf 0 bs))
      = annsOf 0 bs := by
  rcases hA with rfl | hA
  · rfl
  · have := c8_main fmt hO bs 0 [] none hOK
      (fun a ha => absurd ha (List.not_mem_nil a))
      (by rw [List.nil_append]; exact annsOf_ne_nil bs 0 hA)
      (fun tg s e h => nomatch h)
    rw [List.nil_append] at this
    rw [this]
    rfl

/-- Witness for C8 (amended) on a gapped tokenization — tokens `(0,2)`,
`(3,7)`, `(8,10)`, `(11,14)`, `(15,18)` separated by untokenized
characters, as in a real document "He left on Mon day": token "He",
span EVENT over token "left" (one skipped character before it), token
"on", span TIMEX3 covering the two tokens "Mon" and "day" with one
untokenized character between them (span `(11,18)`). -/
theorem c8_round_trip_witness :
    (blocksOK [Block.gap 0 2, Block.span "EVENT" 1 4 [], Block.gap 1 2,
        Block.span "TIMEX3" 1 3 [(1, 3)]] = true) ∧
      ('O' ∈ "BIO".toList) ∧
      (tokensOf 0 [Block.gap 0 2, Block.span "EVENT" 1 4 [],
          Block.gap 1 2, Block.span "TIMEX3" 1 3 [(1, 3)]]
        = [(0, 2), (3, 7), (8, 10), (11, 14), (15, 18)]) ∧
      (annsOf 0 [Block.gap 0 2, Block.span "EVENT" 1 4 [], Block.gap 1 2,
          Block.span "TIMEX3" 1 3 [(1, 3)]]
        = [("EVENT", 3, 7), ("TIMEX3", 11, 18)]) ∧
      decode_labels none
          (encodeTokens (annsOf 0 [Block.gap 0 2, Block.span "EVENT" 1 4 [],
              Block.gap 1 2, Block.span "TIMEX3" 1 3 [(1, 3)]]) "BIO"
            (tokensOf 0 [Block.gap 0 2, Block.span "EVENT" 1 4 [],
              Block.gap 1 2, Block.span "TIMEX3" 1 3 [(1, 3)]]))
        = annsOf 0 [Block.gap 0 2, Block.span "EVENT" 1 4 [], Block.gap 1 2,
            Block.span "TIMEX3" 1 3 [(1, 3)]] :=
  ⟨by decide, by decide, by decide, by decide,
    c8_round_trip [Block.gap 0 2, Block.span "EVENT" 1 4 [], Block.gap 1 2,
        Block.span "TIMEX3" 1 3 [(1, 3)]] "BIO" (by decide) (by decide)
      (Or.inr (by decide))⟩

end ManTIME
